import Mathlib

/-!
# File-name helpers of `FileOperations.cpp`

A shallow embedding of the helpers `unSuffix`, `getFirstUnusedFileName`,
`filenameHasIllegalChar`, `renamePath` and `createFolder` of the namespace
`FileOpHelpers`, and of `FileOperations::renameFile`.

* A `std::string` is a `List Char`; every element stands for one `char`.
* `size_t` is a natural number below `2 ^ 64`; every `size_t` addition and
  subtraction of the source is written with an explicit `% 2 ^ 64`, and
  `std::string::npos` is `2 ^ 64 - 1`.
* `std::string::erase(first, last)` is only defined when
  `first <= last <= end()`; the embedding returns `none` otherwise.
* `std::isdigit` and `std::isspace` are taken in the default "C" locale.
-/

namespace FileOpHelpers

/-! ## `std::string` primitives -/

/-- The modulus of `size_t` arithmetic. -/
def sizeMod : Nat := 2 ^ 64

/-- The value `std::string::npos`, that is `size_t(-1)`. -/
def npos : Nat := 2 ^ 64 - 1

/-- The `size_t` sum `a + b`. -/
def szAdd (a b : Nat) : Nat := (a + b) % 2 ^ 64

/-- The `size_t` difference `a - b`. -/
def szSub (a b : Nat) : Nat := (a + 2 ^ 64 - b % 2 ^ 64) % 2 ^ 64

/-- The character `path[i]`; the terminating `'\0'` past the end. -/
def charAt (s : List Char) (i : Nat) : Char := s.getD i (Char.ofNat 0)

/-- The function `std::isdigit` in the "C" locale. -/
def isdigit (c : Char) : Bool := decide (48 ≤ c.toNat) && decide (c.toNat ≤ 57)

/-- The function `std::isspace` in the "C" locale: space, `\t`, `\n`, `\v`, `\f`, `\r`. -/
def isspace (c : Char) : Bool :=
  c.toNat == 32 || (decide (9 ≤ c.toNat) && decide (c.toNat ≤ 13))

/-- Backward scan over the indices `n - 1, ..., 0`: the largest index below `n`
whose character satisfies `p`, or `npos`. -/
def scanBack (p : Char → Bool) (s : List Char) : Nat → Nat
  | 0 => npos
  | n + 1 => if p (charAt s n) then n else scanBack p s n

/-- Forward scan over the `k` indices `i, i + 1, ...`: the smallest of them whose
character satisfies `p`, or `npos`. -/
def scanFwd (p : Char → Bool) (s : List Char) : Nat → Nat → Nat
  | _, 0 => npos
  | i, k + 1 => if p (charAt s i) then i else scanFwd p s (i + 1) k

/-- The call `s.find_last_of(c, pos)`: the last index `<= pos` holding `c`. -/
def find_last_of (s : List Char) (c : Char) (pos : Nat) : Nat :=
  if s.length = 0 then npos
  else scanBack (fun x => x == c) s (min pos (s.length - 1) + 1)

/-- The call `s.find_last_not_of(c, pos)`: the last index `<= pos` not holding `c`. -/
def find_last_not_of (s : List Char) (c : Char) (pos : Nat) : Nat :=
  if s.length = 0 then npos
  else scanBack (fun x => x != c) s (min pos (s.length - 1) + 1)

/-- The call `s.find_first_not_of(c, pos)`: the first index `>= pos` not holding `c`. -/
def find_first_not_of (s : List Char) (c : Char) (pos : Nat) : Nat :=
  scanFwd (fun x => x != c) s pos (s.length - pos)

/-- The call `s.erase(s.begin() + first, s.begin() + last)`, defined only for a
valid range `first <= last <= s.size()`. -/
def erase (s : List Char) (first last : Nat) : Option (List Char) :=
  if first ≤ last ∧ last ≤ s.length then some (s.take first ++ s.drop last) else none

/-! ## `unSuffix` -/

/-- The first loop of `unSuffix`: `k` iterations from index `i`; `false` as soon
as a character is not a digit (the early `return path`). -/
def digitsLoop (path : List Char) : Nat → Nat → Bool
  | _, 0 => true
  | i, k + 1 => if !isdigit (charAt path i) then false else digitsLoop path (i + 1) k

/-- The second loop of `unSuffix`: `k` iterations from index `i`; `true` at the
`break` on `'.'` or at the end, `false` at the early `return path`. -/
def trailingLoop (path : List Char) : Nat → Nat → Bool
  | _, 0 => true
  | i, k + 1 =>
    if charAt path i == '.' then true
    else if !isspace (charAt path i) then false
    else trailingLoop path (i + 1) k

/-- The indices `(beginIdx, endIdx)` with which `unSuffix` reaches its `erase`
call, or `none` when it returns the path early. -/
def eraseRange (path : List Char) : Option (Nat × Nat) :=
  let endIdx := find_last_of path ')' npos
  let beginIdx := find_last_of path '(' endIdx
  if beginIdx = npos ∨ endIdx = npos then none
  else if !digitsLoop path (szAdd beginIdx 1) (endIdx - szAdd beginIdx 1) then none
  else if !trailingLoop path (szAdd endIdx 1) (path.length - szAdd endIdx 1) then none
  else
    let beginIdx := find_last_not_of path ' ' (szSub beginIdx 1)
    let endIdx := find_first_not_of path ' ' (szAdd endIdx 1)
    let endIdx := if endIdx = npos then path.length else endIdx
    let beginIdx := szAdd beginIdx 1
    let endIdx := szSub endIdx 1
    some (beginIdx, endIdx)

/-- The function `FileOpHelpers::unSuffix`; `none` when its `erase` call is
undefined. -/
def unSuffix (path : List Char) : Option (List Char) :=
  match eraseRange path with
  | none => some path
  | some (beginIdx, endIdx) =>
    match erase path beginIdx (endIdx + 1) with
    | none => none
    | some pathCopy => if pathCopy.isEmpty then some path else some pathCopy

/-! ## `std::filesystem::path`

A path is the text of its pathname. Its decomposition follows the C++ standard
([fs.path.decompose], [fs.path.modifiers]) with `'/'` and `'\\'` as directory separators;
root names (drive letters, UNC prefixes) are not told apart from ordinary text. -/

/-- A directory separator. -/
def isSlash (c : Char) : Bool := c == '/' || c == '\\'

/-- The text of `path.filename()`: what follows the last directory separator. -/
def filename (p : List Char) : List Char := p.rtakeWhile (fun c => !isSlash c)

/-- What `path.remove_filename()` leaves: the text up to and including the last
directory separator. -/
def dirPart (p : List Char) : List Char := p.rdropWhile (fun c => !isSlash c)

/-- The pair `(stem, extension)` of a filename `f`: the extension starts at the last
`'.'` of `f`, unless `f` is `"."` or `".."` or its only `'.'` is its first character. -/
def splitExt (f : List Char) : List Char × List Char :=
  if f = ['.'] ∨ f = ['.', '.'] then (f, [])
  else if (f.rdropWhile (fun c => c != '.')).length ≤ 1 then (f, [])
  else ((f.rdropWhile (fun c => c != '.')).dropLast, '.' :: f.rtakeWhile (fun c => c != '.'))

/-- The text of `path.stem()`. -/
def stem (p : List Char) : List Char := (splitExt (filename p)).1

/-- The text of `path.extension()`. -/
def extension (p : List Char) : List Char := (splitExt (filename p)).2

/-- The call `path.replace_filename(name)`, that is `remove_filename()` followed by
`operator/=(name)`: a `name` that starts with a directory separator has a root directory
and replaces the whole pathname; any other `name` is appended to what
`remove_filename()` leaves. -/
def replace_filename (p name : List Char) : List Char :=
  match name with
  | [] => dirPart p
  | c :: rest => if isSlash c then c :: rest else dirPart p ++ c :: rest

/-- The decimal digits of `n`, most significant first, in front of `acc`; `fuel` bounds
the number of digits. -/
def decimalAux : Nat → Nat → List Char → List Char
  | 0, _, acc => acc
  | fuel + 1, n, acc =>
    if n / 10 = 0 then Char.ofNat (48 + n % 10) :: acc
    else decimalAux fuel (n / 10) (Char.ofNat (48 + n % 10) :: acc)

/-- The text `std::format("{}", n)` of an unsigned integer. -/
def decimal (n : Nat) : List Char := decimalAux (n + 1) n []

/-! ## `getFirstUnusedFileName` -/

/-- The path `testPath` built in the loop body for the counter `i`: the filename of
`basicPath` replaced by `std::format("{} ({}){}", stem, i, extension)`. -/
def candidate (basicPath : List Char) (i : Nat) : List Char :=
  replace_filename basicPath
    (stem basicPath ++ [' ', '('] ++ decimal i ++ [')'] ++ extension basicPath)

/-- The `for` loop of `getFirstUnusedFileName`: `k` iterations from the counter `i`;
the first candidate that does not exist, or `none` when the loop runs to its end. -/
def probeLoop (pathExists : List Char → Bool) (basicPath : List Char) :
    Nat → Nat → Option (List Char)
  | _, 0 => none
  | i, k + 1 =>
    if !pathExists (candidate basicPath i) then some (candidate basicPath i)
    else probeLoop pathExists basicPath (i + 1) k

/-- The path returned after the loop. -/
def exhaustedPath : List Char := "pick a different file name".toList

/-- The function `FileOpHelpers::getFirstUnusedFileName` over the existence test
`pathExists` (`std::filesystem::exists`); `none` when `unSuffix` is undefined. -/
def getFirstUnusedFileName (pathExists : List Char → Bool) (path : List Char) :
    Option (List Char) :=
  match unSuffix path with
  | none => none
  | some basicPath =>
    if !pathExists basicPath then some basicPath
    else
      match probeLoop pathExists basicPath 2 (1000000 - 2) with
      | some testPath => some testPath
      | none => some exhaustedPath

/-! ## The scenario of the test `UnusedFileNames` -/

/-- The existence test after the file `p` has been written. -/
def createFile (pathExists : List Char → Bool) (p : List Char) : List Char → Bool :=
  fun q => decide (q = p) || pathExists q

/-- The existence test after `k` rounds of calling `getFirstUnusedFileName f` and
writing the returned path; `none` when a call is undefined. -/
def afterRounds (pathExists : List Char → Bool) (f : List Char) :
    Nat → Option (List Char → Bool)
  | 0 => some pathExists
  | k + 1 =>
    match afterRounds pathExists f k with
    | none => none
    | some ex =>
      match getFirstUnusedFileName ex f with
      | none => none
      | some p => some (createFile ex p)

/-- The path returned by call number `k` (counted from `0`) of the scenario. -/
def kthCall (pathExists : List Char → Bool) (f : List Char) (k : Nat) :
    Option (List Char) :=
  match afterRounds pathExists f k with
  | none => none
  | some ex => getFirstUnusedFileName ex f

/-- The number of calls of `std::filesystem::exists` that the `for` loop of
`getFirstUnusedFileName` makes in `k` iterations from the counter `i`. -/
def probeLoopChecks (pathExists : List Char → Bool) (basicPath : List Char) :
    Nat → Nat → Nat
  | _, 0 => 0
  | i, k + 1 =>
    if !pathExists (candidate basicPath i) then 1
    else 1 + probeLoopChecks pathExists basicPath (i + 1) k

/-- The number of calls of `std::filesystem::exists` that `getFirstUnusedFileName`
makes: one for `basicPath`, then those of the loop. -/
def existenceChecks (pathExists : List Char → Bool) (path : List Char) : Nat :=
  match unSuffix path with
  | none => 0
  | some basicPath =>
    if !pathExists basicPath then 1
    else 1 + probeLoopChecks pathExists basicPath 2 (1000000 - 2)

/-! ## `filenameHasIllegalChar`, `renamePath`, `renameFile` -/

/-- The vector `illegalChars` of `filenameHasIllegalChar`; `Char.ofNat 34` is the double
quote. -/
def illegalChars : List Char := ['\\', '/', ':', '*', '?', Char.ofNat 34, '<', '>', '|']

/-- The inner loop of `filenameHasIllegalChar` over the illegal characters: `true` when it
reaches `return c`. -/
def innerLoop (c : Char) : List Char → Bool
  | [] => false
  | illegalChar :: rest => if c == illegalChar then true else innerLoop c rest

/-- The function `FileOpHelpers::filenameHasIllegalChar`; the result `'\0'` is
`Char.ofNat 0`. -/
def filenameHasIllegalChar : List Char → Char
  | [] => Char.ofNat 0
  | c :: rest => if innerLoop c illegalChars then c else filenameHasIllegalChar rest

/-- The function `FileOpHelpers::renamePath`. -/
def renamePath (path newName : List Char) : List Char :=
  replace_filename path (newName ++ extension path)

/-- The function `FileOperations::renameFile` over a file system with states `σ`, the test
`pathExists` (`std::filesystem::exists`) and the operation `rename`
(`std::filesystem::rename`): the returned flag and the state afterwards. -/
def renameFile {σ : Type} (pathExists : σ → List Char → Bool)
    (rename : σ → List Char → List Char → σ) (s : σ) (currentPath newName : List Char) :
    Bool × σ :=
  if filenameHasIllegalChar newName ≠ Char.ofNat 0 then (false, s)
  else if pathExists s (renamePath currentPath newName) then (false, s)
  else (true, rename s currentPath (renamePath currentPath newName))

/-! ## `createFolder` -/

/-- The text of `path.parent_path()`: the pathname without its filename and without the
directory separators in front of it, unless nothing but separators is left. -/
def parent_path (p : List Char) : List Char :=
  if (dirPart p).rdropWhile isSlash = [] then dirPart p else (dirPart p).rdropWhile isSlash

/-- The test `path.has_parent_path()`. -/
def has_parent_path (p : List Char) : Bool := !(parent_path p).isEmpty

/-- The test `path.has_extension()`. -/
def has_extension (p : List Char) : Bool := !(extension p).isEmpty

/-- The function `FileOpHelpers::createFolder` over a file system with states `σ` and
the operation `create_directories` (`std::filesystem::create_directories`): the
returned flag and the state afterwards. -/
def createFolder {σ : Type} (create_directories : σ → List Char → Bool × σ) (s : σ)
    (path : List Char) (fileHasNoExtension : Bool) : Bool × σ :=
  if has_extension path || fileHasNoExtension then
    if has_parent_path path then create_directories s (parent_path path)
    else (false, s)
  else create_directories s path

/-- The directory arguments with which `create_directories` has been called: a file
system that only records its calls. -/
def recordCall (calls : List (List Char)) (dir : List Char) : Bool × List (List Char) :=
  (true, calls ++ [dir])

/-! ## Vocabulary of the specification -/

/-- The reserved characters of the specification: `\\ / : * ? " < > |`. -/
def reservedChars : List Char :=
  [Char.ofNat 92, Char.ofNat 47, Char.ofNat 58, Char.ofNat 42, Char.ofNat 63, Char.ofNat 34,
    Char.ofNat 60, Char.ofNat 62, Char.ofNat 124]

/-- The number that a list of decimal digits writes. -/
def decimalValue (l : List Char) : Nat := l.foldl (fun a c => 10 * a + (c.toNat - 48)) 0


/-- Index `e` holds the last `')'` of `path`. -/
def IsLastClose (path : List Char) (e : Nat) : Prop :=
  e < path.length ∧ charAt path e = ')' ∧
    ∀ j, e < j → j < path.length → charAt path j ≠ ')'

/-- Index `b` holds the last `'('` at or before index `e` (the matched `'('`). -/
def IsMatchedOpen (path : List Char) (e b : Nat) : Prop :=
  b ≤ e ∧ charAt path b = '(' ∧ ∀ j, b < j → j ≤ e → charAt path j ≠ '('

/-- Every character strictly between the indices `b` and `e` is a decimal digit. -/
def DigitsBetween (path : List Char) (b e : Nat) : Prop :=
  ∀ j, b < j → j < e → isdigit (charAt path j) = true

/-- Every character after index `e` and before the first later `'.'` (or the end
of the string) is whitespace. -/
def BlankUntilDot (path : List Char) (e : Nat) : Prop :=
  ∀ j, e < j → j < path.length → (∀ m, e < m → m ≤ j → charAt path m ≠ '.') →
    isspace (charAt path j) = true

/-- The name carries a recognized annotation, as `unSuffix` recognizes it: its last
parenthetical group holds nothing but decimal digits (possibly none) and is followed, up
to the first `'.'` or the end of the name, by whitespace only. -/
def Recognized (path : List Char) : Prop :=
  ∃ b e, IsLastClose path e ∧ IsMatchedOpen path e b ∧ DigitsBetween path b e ∧
    BlankUntilDot path e

/-! ## Facts about the primitives -/

theorem charAt_append_left (a b : List Char) (j : Nat) (h : j < a.length) :
    charAt (a ++ b) j = charAt a j := by
  simp [charAt, List.getD_eq_getElem?_getD, List.getElem?_append_left h]

theorem charAt_append_right (a b : List Char) (j : Nat) (h : a.length ≤ j) :
    charAt (a ++ b) j = charAt b (j - a.length) := by
  simp [charAt, List.getD_eq_getElem?_getD, List.getElem?_append_right h]

theorem charAt_cons_zero (c : Char) (b : List Char) : charAt (c :: b) 0 = c := by
  simp [charAt]

theorem charAt_cons_succ (c : Char) (b : List Char) (j : Nat) :
    charAt (c :: b) (j + 1) = charAt b j := by
  simp [charAt]

theorem charAt_replicate (n j : Nat) (c : Char) (h : j < n) :
    charAt (List.replicate n c) j = c := by
  simp [charAt, List.getD_eq_getElem?_getD, List.getElem?_replicate, h]

theorem charAt_take (s : List Char) (n j : Nat) (h : j < n) :
    charAt (s.take n) j = charAt s j := by
  simp [charAt, List.getD_eq_getElem?_getD, List.getElem?_take, h]

theorem charAt_drop (s : List Char) (n j : Nat) :
    charAt (s.drop n) j = charAt s (n + j) := by
  simp [charAt, List.getD_eq_getElem?_getD, List.getElem?_drop]

theorem charAt_mem (s : List Char) (j : Nat) (h : j < s.length) : charAt s j ∈ s := by
  simp only [charAt, List.getD_eq_getElem?_getD, List.getElem?_eq_getElem h, Option.getD_some]
  exact List.getElem_mem h

theorem scanBack_eq (p : Char → Bool) (s : List Char) (n i : Nat) (hi : i < n)
    (hp : p (charAt s i) = true) (hq : ∀ j, i < j → j < n → p (charAt s j) = false) :
    scanBack p s n = i := by
  induction n with
  | zero => omega
  | succ n ih =>
    unfold scanBack
    by_cases h : i = n
    · subst h; simp [hp]
    · rw [if_neg (by simp [hq n (by omega) (by omega)])]
      exact ih (by omega) (fun j h1 h2 => hq j h1 (by omega))

theorem scanBack_none (p : Char → Bool) (s : List Char) (n : Nat)
    (hq : ∀ j, j < n → p (charAt s j) = false) : scanBack p s n = npos := by
  induction n with
  | zero => rfl
  | succ n ih =>
    unfold scanBack
    rw [if_neg (by simp [hq n (by omega)])]
    exact ih (fun j h => hq j (by omega))

theorem scanBack_cases (p : Char → Bool) (s : List Char) (n : Nat) :
    (scanBack p s n = npos ∧ ∀ j, j < n → p (charAt s j) = false) ∨
    (scanBack p s n < n ∧ p (charAt s (scanBack p s n)) = true ∧
      ∀ j, scanBack p s n < j → j < n → p (charAt s j) = false) := by
  induction n with
  | zero => left; exact ⟨rfl, fun j h => by omega⟩
  | succ n ih =>
    unfold scanBack
    by_cases h : p (charAt s n) = true
    · right
      rw [if_pos h]
      exact ⟨by omega, h, fun j h1 h2 => by omega⟩
    · rw [if_neg h]
      have hn : p (charAt s n) = false := by simpa using h
      rcases ih with ⟨h1, h2⟩ | ⟨h1, h2, h3⟩
      · left
        refine ⟨h1, fun j hj => ?_⟩
        by_cases hjn : j = n
        · subst hjn; exact hn
        · exact h2 j (by omega)
      · right
        refine ⟨by omega, h2, fun j hj1 hj2 => ?_⟩
        by_cases hjn : j = n
        · subst hjn; exact hn
        · exact h3 j hj1 (by omega)

theorem scanFwd_eq (p : Char → Bool) (s : List Char) (k i r : Nat) (h1 : i ≤ r)
    (h2 : r < i + k) (hp : p (charAt s r) = true)
    (hq : ∀ j, i ≤ j → j < r → p (charAt s j) = false) : scanFwd p s i k = r := by
  induction k generalizing i with
  | zero => omega
  | succ k ih =>
    unfold scanFwd
    by_cases h : i = r
    · subst h; simp [hp]
    · rw [if_neg (by simp [hq i (by omega) (by omega)])]
      exact ih (i + 1) (by omega) (by omega) (fun j h3 h4 => hq j (by omega) h4)

theorem scanFwd_none (p : Char → Bool) (s : List Char) (k i : Nat)
    (hq : ∀ j, i ≤ j → j < i + k → p (charAt s j) = false) : scanFwd p s i k = npos := by
  induction k generalizing i with
  | zero => rfl
  | succ k ih =>
    unfold scanFwd
    rw [if_neg (by simp [hq i (by omega) (by omega)])]
    exact ih (i + 1) (fun j h3 h4 => hq j (by omega) (by omega))

theorem scanFwd_cases (p : Char → Bool) (s : List Char) (k i : Nat) :
    (scanFwd p s i k = npos ∧ ∀ j, i ≤ j → j < i + k → p (charAt s j) = false) ∨
    (i ≤ scanFwd p s i k ∧ scanFwd p s i k < i + k ∧
      p (charAt s (scanFwd p s i k)) = true ∧
      ∀ j, i ≤ j → j < scanFwd p s i k → p (charAt s j) = false) := by
  induction k generalizing i with
  | zero => left; exact ⟨rfl, fun j h1 h2 => by omega⟩
  | succ k ih =>
    unfold scanFwd
    by_cases h : p (charAt s i) = true
    · right
      rw [if_pos h]
      exact ⟨by omega, by omega, h, fun j h1 h2 => by omega⟩
    · rw [if_neg h]
      have hn : p (charAt s i) = false := by simpa using h
      rcases ih (i + 1) with ⟨h1, h2⟩ | ⟨h1, h2, h3, h4⟩
      · left
        refine ⟨h1, fun j hj1 hj2 => ?_⟩
        by_cases hji : j = i
        · subst hji; exact hn
        · exact h2 j (by omega) (by omega)
      · right
        refine ⟨by omega, by omega, h3, fun j hj1 hj2 => ?_⟩
        by_cases hji : j = i
        · subst hji; exact hn
        · exact h4 j (by omega) hj2

theorem digitsLoop_true (s : List Char) (k i : Nat)
    (h : ∀ j, i ≤ j → j < i + k → isdigit (charAt s j) = true) :
    digitsLoop s i k = true := by
  induction k generalizing i with
  | zero => rfl
  | succ k ih =>
    unfold digitsLoop
    rw [if_neg (by simp [h i (by omega) (by omega)])]
    exact ih (i + 1) (fun j h1 h2 => h j (by omega) (by omega))

theorem digitsLoop_false (s : List Char) (k i j : Nat) (h1 : i ≤ j) (h2 : j < i + k)
    (h : isdigit (charAt s j) = false) : digitsLoop s i k = false := by
  induction k generalizing i with
  | zero => omega
  | succ k ih =>
    unfold digitsLoop
    by_cases hd : isdigit (charAt s i) = true
    · rw [if_neg (by simp [hd])]
      have hij : i ≠ j := by
        intro e; subst e; rw [h] at hd; exact Bool.noConfusion hd
      exact ih (i + 1) (by omega) (by omega)
    · rw [if_pos (by simpa using hd)]

theorem digitsLoop_spec (s : List Char) (k i : Nat) (h : digitsLoop s i k = true) :
    ∀ j, i ≤ j → j < i + k → isdigit (charAt s j) = true := by
  intro j h1 h2
  by_contra hc
  have := digitsLoop_false s k i j h1 h2 (by simpa using hc)
  rw [this] at h
  exact Bool.noConfusion h

theorem trailingLoop_true (s : List Char) (k i : Nat)
    (h : ∀ j, i ≤ j → j < i + k → (∀ m, i ≤ m → m ≤ j → charAt s m ≠ '.') →
      isspace (charAt s j) = true) :
    trailingLoop s i k = true := by
  induction k generalizing i with
  | zero => rfl
  | succ k ih =>
    unfold trailingLoop
    by_cases hdot : charAt s i = '.'
    · simp [hdot]
    · rw [if_neg (by simpa using hdot)]
      have hsp : isspace (charAt s i) = true :=
        h i (by omega) (by omega) (fun m h1 h2 => by
          have : m = i := by omega
          subst this; exact hdot)
      rw [if_neg (by simp [hsp])]
      refine ih (i + 1) (fun j h1 h2 h3 => h j (by omega) (by omega) (fun m h4 h5 => ?_))
      by_cases hmi : m = i
      · subst hmi; exact hdot
      · exact h3 m (by omega) h5

theorem trailingLoop_false (s : List Char) (k i j : Nat) (h1 : i ≤ j) (h2 : j < i + k)
    (hsp : isspace (charAt s j) = false) (hdot : ∀ m, i ≤ m → m ≤ j → charAt s m ≠ '.') :
    trailingLoop s i k = false := by
  induction k generalizing i with
  | zero => omega
  | succ k ih =>
    unfold trailingLoop
    rw [if_neg (by simpa using hdot i (by omega) h1)]
    by_cases hi : isspace (charAt s i) = true
    · rw [if_neg (by simp [hi])]
      have hij : i ≠ j := by
        intro e; subst e; rw [hsp] at hi; exact Bool.noConfusion hi
      exact ih (i + 1) (by omega) (by omega) (fun m h3 h4 => hdot m (by omega) h4)
    · rw [if_pos (by simpa using hi)]

theorem trailingLoop_spec (s : List Char) (k i : Nat) (h : trailingLoop s i k = true) :
    ∀ j, i ≤ j → j < i + k → (∀ m, i ≤ m → m ≤ j → charAt s m ≠ '.') →
      isspace (charAt s j) = true := by
  intro j h1 h2 h3
  by_contra hc
  have := trailingLoop_false s k i j h1 h2 (by simpa using hc) h3
  rw [this] at h
  exact Bool.noConfusion h

theorem find_last_of_eq (s : List Char) (c : Char) (pos i : Nat) (hi : i < s.length)
    (hpos : i ≤ pos) (hc : charAt s i = c)
    (hq : ∀ j, i < j → j ≤ pos → j < s.length → charAt s j ≠ c) :
    find_last_of s c pos = i := by
  unfold find_last_of
  rw [if_neg (by omega)]
  apply scanBack_eq
  · omega
  · simpa using hc
  · intro j h1 h2
    simpa using hq j h1 (by omega) (by omega)

theorem find_last_of_cases (s : List Char) (c : Char) (pos : Nat) :
    (find_last_of s c pos = npos ∧ ∀ j, j ≤ pos → j < s.length → charAt s j ≠ c) ∨
    (find_last_of s c pos < s.length ∧ find_last_of s c pos ≤ pos ∧
      charAt s (find_last_of s c pos) = c ∧
      ∀ j, find_last_of s c pos < j → j ≤ pos → j < s.length → charAt s j ≠ c) := by
  unfold find_last_of
  by_cases h0 : s.length = 0
  · left
    rw [if_pos h0]
    exact ⟨rfl, fun j _ h => by omega⟩
  · rw [if_neg h0]
    rcases scanBack_cases (fun x => x == c) s (min pos (s.length - 1) + 1) with
      ⟨h1, h2⟩ | ⟨h1, h2, h3⟩
    · left
      refine ⟨h1, fun j hj1 hj2 => ?_⟩
      simpa using h2 j (by omega)
    · right
      refine ⟨by omega, by omega, by simpa using h2, fun j hj1 hj2 hj3 => ?_⟩
      simpa using h3 j hj1 (by omega)

theorem find_last_not_of_eq (s : List Char) (c : Char) (pos i : Nat) (hi : i < s.length)
    (hpos : i ≤ pos) (hc : charAt s i ≠ c)
    (hq : ∀ j, i < j → j ≤ pos → j < s.length → charAt s j = c) :
    find_last_not_of s c pos = i := by
  unfold find_last_not_of
  rw [if_neg (by omega)]
  apply scanBack_eq
  · omega
  · simpa using hc
  · intro j h1 h2
    simpa using hq j h1 (by omega) (by omega)

theorem find_last_not_of_none (s : List Char) (c : Char) (pos : Nat)
    (hq : ∀ j, j ≤ pos → j < s.length → charAt s j = c) :
    find_last_not_of s c pos = npos := by
  unfold find_last_not_of
  by_cases h0 : s.length = 0
  · rw [if_pos h0]
  · rw [if_neg h0]
    apply scanBack_none
    intro j h1
    simpa using hq j (by omega) (by omega)

theorem find_last_not_of_cases (s : List Char) (c : Char) (pos : Nat) :
    (find_last_not_of s c pos = npos ∧ ∀ j, j ≤ pos → j < s.length → charAt s j = c) ∨
    (find_last_not_of s c pos < s.length ∧ find_last_not_of s c pos ≤ pos ∧
      charAt s (find_last_not_of s c pos) ≠ c ∧
      ∀ j, find_last_not_of s c pos < j → j ≤ pos → j < s.length → charAt s j = c) := by
  unfold find_last_not_of
  by_cases h0 : s.length = 0
  · left
    rw [if_pos h0]
    exact ⟨rfl, fun j _ h => by omega⟩
  · rw [if_neg h0]
    rcases scanBack_cases (fun x => x != c) s (min pos (s.length - 1) + 1) with
      ⟨h1, h2⟩ | ⟨h1, h2, h3⟩
    · left
      refine ⟨h1, fun j hj1 hj2 => ?_⟩
      simpa using h2 j (by omega)
    · right
      refine ⟨by omega, by omega, by simpa using h2, fun j hj1 hj2 hj3 => ?_⟩
      simpa using h3 j hj1 (by omega)

theorem find_first_not_of_eq (s : List Char) (c : Char) (pos r : Nat) (h1 : pos ≤ r)
    (h2 : r < s.length) (hc : charAt s r ≠ c)
    (hq : ∀ j, pos ≤ j → j < r → charAt s j = c) :
    find_first_not_of s c pos = r := by
  unfold find_first_not_of
  apply scanFwd_eq
  · exact h1
  · omega
  · simpa using hc
  · intro j h3 h4
    simpa using hq j h3 h4

theorem find_first_not_of_none (s : List Char) (c : Char) (pos : Nat)
    (hq : ∀ j, pos ≤ j → j < s.length → charAt s j = c) :
    find_first_not_of s c pos = npos := by
  unfold find_first_not_of
  apply scanFwd_none
  intro j h1 h2
  simpa using hq j h1 (by omega)

theorem find_first_not_of_cases (s : List Char) (c : Char) (pos : Nat) :
    (find_first_not_of s c pos = npos ∧
      ∀ j, pos ≤ j → j < s.length → charAt s j = c) ∨
    (pos ≤ find_first_not_of s c pos ∧ find_first_not_of s c pos < s.length ∧
      charAt s (find_first_not_of s c pos) ≠ c ∧
      ∀ j, pos ≤ j → j < find_first_not_of s c pos → charAt s j = c) := by
  unfold find_first_not_of
  rcases scanFwd_cases (fun x => x != c) s (s.length - pos) pos with
    ⟨h1, h2⟩ | ⟨h1, h2, h3, h4⟩
  · left
    refine ⟨h1, fun j hj1 hj2 => ?_⟩
    simpa using h2 j hj1 (by omega)
  · right
    refine ⟨h1, by omega, by simpa using h3, fun j hj1 hj2 => ?_⟩
    simpa using h4 j hj1 hj2

/-! ## Facts about `size_t` arithmetic -/

theorem szAdd_one (a : Nat) (h : a < npos) : szAdd a 1 = a + 1 := by
  unfold szAdd npos at *
  omega

theorem szAdd_npos_one : szAdd npos 1 = 0 := by decide

theorem szSub_one (a : Nat) (h0 : 0 < a) (h : a ≤ npos) : szSub a 1 = a - 1 := by
  unfold szSub npos at *
  omega

theorem szSub_zero_one : szSub 0 1 = npos := by decide

/-! ## The validation steps of `unSuffix` -/

theorem find_close (path : List Char) (e : Nat) (hlen : path.length < npos)
    (he : IsLastClose path e) : find_last_of path ')' npos = e := by
  obtain ⟨h1, h2, h3⟩ := he
  exact find_last_of_eq path ')' npos e h1 (by omega) h2
    (fun j hj1 _ hj3 => h3 j hj1 hj3)

theorem find_open (path : List Char) (e b : Nat) (he : e < path.length)
    (hb : IsMatchedOpen path e b) : find_last_of path '(' e = b := by
  obtain ⟨h1, h2, h3⟩ := hb
  exact find_last_of_eq path '(' e b (by omega) h1 h2 (fun j hj1 hj2 _ => h3 j hj1 hj2)

theorem isLastClose_find (path : List Char) (hlen : path.length < npos)
    (h : find_last_of path ')' npos ≠ npos) :
    IsLastClose path (find_last_of path ')' npos) := by
  rcases find_last_of_cases path ')' npos with ⟨h1, _⟩ | ⟨h1, _, h3, h4⟩
  · exact absurd h1 h
  · exact ⟨h1, h3, fun j hj1 hj2 => h4 j hj1 (by omega) hj2⟩

theorem isMatchedOpen_find (path : List Char) (e : Nat)
    (h : find_last_of path '(' e ≠ npos) :
    IsMatchedOpen path e (find_last_of path '(' e) := by
  rcases find_last_of_cases path '(' e with ⟨h1, _⟩ | ⟨h1, h2, h3, h4⟩
  · exact absurd h1 h
  · refine ⟨h2, h3, fun j hj1 hj2 => ?_⟩
    by_cases hj : j < path.length
    · exact h4 j hj1 hj2 hj
    · have : charAt path j = Char.ofNat 0 := by
        simp [charAt, List.getD_eq_getElem?_getD, List.getElem?_eq_none (by omega : path.length ≤ j)]
      rw [this]; decide

theorem eraseRange_valid (path : List Char) (b e : Nat) (hlen : path.length < npos)
    (he : IsLastClose path e) (hb : IsMatchedOpen path e b)
    (hd : DigitsBetween path b e) (ht : BlankUntilDot path e) :
    eraseRange path =
      some (szAdd (find_last_not_of path ' ' (szSub b 1)) 1,
        szSub (if find_first_not_of path ' ' (e + 1) = npos then path.length
          else find_first_not_of path ' ' (e + 1)) 1) := by
  have hE := find_close path e hlen he
  have hB := find_open path e b he.1 hb
  have hel : e < path.length := he.1
  have hble : b ≤ e := hb.1
  have h1 : szAdd b 1 = b + 1 := szAdd_one b (by omega)
  have h2 : szAdd e 1 = e + 1 := szAdd_one e (by omega)
  have hdl : digitsLoop path (b + 1) (e - (b + 1)) = true :=
    digitsLoop_true path _ _ (fun j hj1 hj2 => hd j (by omega) (by omega))
  have htl : trailingLoop path (e + 1) (path.length - (e + 1)) = true :=
    trailingLoop_true path _ _ (fun j hj1 hj2 hj3 =>
      ht j (by omega) (by omega) (fun m hm1 hm2 => hj3 m (by omega) hm2))
  unfold eraseRange
  simp only [hE, hB, h1, h2, hdl, htl]
  rw [if_neg (by omega)]
  simp

theorem eraseRange_some (path : List Char) (r : Nat × Nat) (hlen : path.length < npos)
    (h : eraseRange path = some r) :
    ∃ b e, IsLastClose path e ∧ IsMatchedOpen path e b ∧ DigitsBetween path b e ∧
      BlankUntilDot path e := by
  by_cases hE : find_last_of path ')' npos = npos
  · unfold eraseRange at h
    simp [hE] at h
  by_cases hB : find_last_of path '(' (find_last_of path ')' npos) = npos
  · unfold eraseRange at h
    simp [hB] at h
  have he := isLastClose_find path hlen hE
  have hb := isMatchedOpen_find path _ hB
  have hel := he.1
  have hble := hb.1
  have h1 := szAdd_one (find_last_of path '(' (find_last_of path ')' npos)) (by omega)
  have h2 := szAdd_one (find_last_of path ')' npos) (by omega)
  refine ⟨_, _, he, hb, ?_, ?_⟩
  · by_cases hdl : digitsLoop path
        (find_last_of path '(' (find_last_of path ')' npos) + 1)
        (find_last_of path ')' npos -
          (find_last_of path '(' (find_last_of path ')' npos) + 1)) = true
    · intro j hj1 hj2
      exact digitsLoop_spec path _ _ hdl j (by omega) (by omega)
    · unfold eraseRange at h
      simp [hE, hB, h1, hdl] at h
  · by_cases htl : trailingLoop path (find_last_of path ')' npos + 1)
        (path.length - (find_last_of path ')' npos + 1)) = true
    · intro j hj1 hj2 hj3
      exact trailingLoop_spec path _ _ htl j (by omega) (by omega)
        (fun m hm1 hm2 => hj3 m (by omega) hm2)
    · unfold eraseRange at h
      simp [hE, hB, h2, htl] at h

theorem eraseRange_invalid (path : List Char) (hlen : path.length < npos)
    (h : ¬ ∃ b e, IsLastClose path e ∧ IsMatchedOpen path e b ∧ DigitsBetween path b e ∧
      BlankUntilDot path e) : eraseRange path = none := by
  cases hr : eraseRange path with
  | none => rfl
  | some r => exact absurd (eraseRange_some path r hlen hr) h

theorem unSuffix_of_invalid (path : List Char) (hlen : path.length < npos)
    (h : ¬ ∃ b e, IsLastClose path e ∧ IsMatchedOpen path e b ∧ DigitsBetween path b e ∧
      BlankUntilDot path e) : unSuffix path = some path := by
  unfold unSuffix
  rw [eraseRange_invalid path hlen h]

theorem isLastClose_unique (path : List Char) (e e2 : Nat) (h1 : IsLastClose path e)
    (h2 : IsLastClose path e2) : e = e2 := by
  obtain ⟨a1, a2, a3⟩ := h1
  obtain ⟨b1, b2, b3⟩ := h2
  by_contra hne
  rcases Nat.lt_or_gt_of_ne hne with hlt | hgt
  · exact a3 e2 hlt b1 b2
  · exact b3 e hgt a1 a2

theorem isMatchedOpen_unique (path : List Char) (e b b2 : Nat)
    (h1 : IsMatchedOpen path e b) (h2 : IsMatchedOpen path e b2) : b = b2 := by
  obtain ⟨a1, a2, a3⟩ := h1
  obtain ⟨c1, c2, c3⟩ := h2
  by_contra hne
  rcases Nat.lt_or_gt_of_ne hne with hlt | hgt
  · exact a3 b2 hlt c1 c2
  · exact c3 b hgt a1 a2

/-! ## Names of the shape `p ++ w1 ++ "(" ++ d ++ ")" ++ w2 ++ ext` -/

theorem charAt_length_cons (a : List Char) (c : Char) (b : List Char) :
    charAt (a ++ c :: b) a.length = c := by
  rw [charAt_append_right a _ _ (Nat.le_refl _), Nat.sub_self, charAt_cons_zero]

theorem charAt_after_cons (a : List Char) (c : Char) (b : List Char) (j : Nat)
    (h : a.length < j) : charAt (a ++ c :: b) j = charAt b (j - a.length - 1) := by
  rw [charAt_append_right a _ _ (by omega)]
  obtain ⟨k, hk⟩ : ∃ k, j - a.length = k + 1 := ⟨j - a.length - 1, by omega⟩
  rw [hk, charAt_cons_succ]
  congr 1

theorem shape_front (p w1 d w2 ext : List Char) (j : Nat) (h : j < p.length) :
    charAt (p ++ (w1 ++ '(' :: (d ++ ')' :: (w2 ++ ext)))) j = charAt p j :=
  charAt_append_left _ _ _ h

theorem shape_w1 (p w1 d w2 ext : List Char) (j : Nat) (h1 : p.length ≤ j)
    (h2 : j < p.length + w1.length) :
    charAt (p ++ (w1 ++ '(' :: (d ++ ')' :: (w2 ++ ext)))) j = charAt w1 (j - p.length) := by
  rw [charAt_append_right _ _ _ h1, charAt_append_left _ _ _ (by omega)]

theorem shape_open (p w1 d w2 ext : List Char) :
    charAt (p ++ (w1 ++ '(' :: (d ++ ')' :: (w2 ++ ext)))) (p.length + w1.length) = '(' := by
  rw [← List.append_assoc, ← List.length_append]
  exact charAt_length_cons _ _ _

theorem shape_digits (p w1 d w2 ext : List Char) (j : Nat)
    (h1 : p.length + w1.length < j) (h2 : j < p.length + w1.length + 1 + d.length) :
    charAt (p ++ (w1 ++ '(' :: (d ++ ')' :: (w2 ++ ext)))) j =
      charAt d (j - (p.length + w1.length) - 1) := by
  rw [← List.append_assoc, charAt_after_cons _ _ _ _ (by simpa using h1),
    charAt_append_left _ _ _ (by simp; omega)]
  simp

theorem shape_close (p w1 d w2 ext : List Char) :
    charAt (p ++ (w1 ++ '(' :: (d ++ ')' :: (w2 ++ ext))))
      (p.length + w1.length + 1 + d.length) = ')' := by
  have h : p ++ (w1 ++ '(' :: (d ++ ')' :: (w2 ++ ext))) =
      (p ++ w1 ++ '(' :: d) ++ ')' :: (w2 ++ ext) := by simp
  have hl : p.length + w1.length + 1 + d.length = (p ++ w1 ++ '(' :: d).length := by
    simp; omega
  rw [h, hl]
  exact charAt_length_cons _ _ _

theorem shape_after (p w1 d w2 ext : List Char) (j : Nat)
    (h1 : p.length + w1.length + 1 + d.length < j) :
    charAt (p ++ (w1 ++ '(' :: (d ++ ')' :: (w2 ++ ext)))) j =
      charAt (w2 ++ ext) (j - (p.length + w1.length + 1 + d.length) - 1) := by
  have h : p ++ (w1 ++ '(' :: (d ++ ')' :: (w2 ++ ext))) =
      (p ++ w1 ++ '(' :: d) ++ ')' :: (w2 ++ ext) := by simp
  have hl : p.length + w1.length + 1 + d.length = (p ++ w1 ++ '(' :: d).length := by
    simp; omega
  rw [h, hl]
  exact charAt_after_cons _ _ _ _ (by omega)

theorem shape_length (p w1 d w2 ext : List Char) :
    (p ++ (w1 ++ '(' :: (d ++ ')' :: (w2 ++ ext)))).length =
      p.length + w1.length + 1 + d.length + 1 + w2.length + ext.length := by
  simp; omega

theorem isdigit_ne_open (c : Char) (h : isdigit c = true) : c ≠ '(' := by
  intro e; subst e; revert h; decide

theorem isspace_ne_close (c : Char) (h : isspace c = true) : c ≠ ')' := by
  intro e; subst e; revert h; decide

theorem charAt_head (l : List Char) (c : Char) (h : l.head? = some c) : charAt l 0 = c := by
  cases l with
  | nil => simp at h
  | cons x t =>
    simp only [List.head?_cons, Option.some.injEq] at h
    rw [charAt_cons_zero, h]

theorem shape_valid (p w1 d w2 ext : List Char) (hdig : ∀ c ∈ d, isdigit c = true)
    (hw2 : ∀ c ∈ w2, isspace c = true) (hext : ext = [] ∨ ext.head? = some '.')
    (hnc : ')' ∉ ext) :
    IsLastClose (p ++ (w1 ++ '(' :: (d ++ ')' :: (w2 ++ ext))))
        (p.length + w1.length + 1 + d.length) ∧
      IsMatchedOpen (p ++ (w1 ++ '(' :: (d ++ ')' :: (w2 ++ ext))))
        (p.length + w1.length + 1 + d.length) (p.length + w1.length) ∧
      DigitsBetween (p ++ (w1 ++ '(' :: (d ++ ')' :: (w2 ++ ext))))
        (p.length + w1.length) (p.length + w1.length + 1 + d.length) ∧
      BlankUntilDot (p ++ (w1 ++ '(' :: (d ++ ')' :: (w2 ++ ext))))
        (p.length + w1.length + 1 + d.length) := by
  have hlen := shape_length p w1 d w2 ext
  have hafter : ∀ j, p.length + w1.length + 1 + d.length < j →
      j < p.length + w1.length + 1 + d.length + 1 + w2.length →
      isspace (charAt (p ++ (w1 ++ '(' :: (d ++ ')' :: (w2 ++ ext)))) j) = true := by
    intro j h1 h2
    rw [shape_after p w1 d w2 ext j h1, charAt_append_left _ _ _ (by omega)]
    exact hw2 _ (charAt_mem _ _ (by omega))
  refine ⟨⟨by omega, shape_close p w1 d w2 ext, ?_⟩,
    ⟨by omega, shape_open p w1 d w2 ext, ?_⟩, ?_, ?_⟩
  · intro j h1 h2
    by_cases hj : j < p.length + w1.length + 1 + d.length + 1 + w2.length
    · exact isspace_ne_close _ (hafter j h1 hj)
    · rw [shape_after p w1 d w2 ext j h1, charAt_append_right _ _ _ (by omega)]
      intro hc
      apply hnc
      rw [← hc]
      exact charAt_mem _ _ (by omega)
  · intro j h1 h2
    by_cases hj : j < p.length + w1.length + 1 + d.length
    · rw [shape_digits p w1 d w2 ext j h1 hj]
      exact isdigit_ne_open _ (hdig _ (charAt_mem _ _ (by omega)))
    · have : j = p.length + w1.length + 1 + d.length := by omega
      rw [this, shape_close]
      decide
  · intro j h1 h2
    rw [shape_digits p w1 d w2 ext j h1 h2]
    exact hdig _ (charAt_mem _ _ (by omega))
  · intro j h1 h2 h3
    by_cases hj : j < p.length + w1.length + 1 + d.length + 1 + w2.length
    · exact hafter j h1 hj
    · exfalso
      rcases hext with he | he
      · have hl0 : ext.length = 0 := by rw [he]; rfl
        omega
      · apply h3 (p.length + w1.length + 1 + d.length + 1 + w2.length) (by omega) (by omega)
        rw [shape_after p w1 d w2 ext _ (by omega), charAt_append_right _ _ _ (by omega)]
        have : p.length + w1.length + 1 + d.length + 1 + w2.length -
            (p.length + w1.length + 1 + d.length) - 1 - w2.length = 0 := by omega
        rw [this]
        exact charAt_head ext '.' he

theorem isspace_space : isspace ' ' = true := by decide

theorem shape_take (p w1 d w2 ext : List Char) :
    (p ++ (w1 ++ '(' :: (d ++ ')' :: (w2 ++ ext)))).take p.length = p := by
  simp

theorem shape_drop (p w1 d w2 ext : List Char) :
    (p ++ (w1 ++ '(' :: (d ++ ')' :: (w2 ++ ext)))).drop
      (p.length + w1.length + 1 + d.length + w2.length + 1) = ext := by
  have h : p ++ (w1 ++ '(' :: (d ++ ')' :: (w2 ++ ext))) =
      (p ++ w1 ++ '(' :: d ++ ')' :: w2) ++ ext := by simp
  rw [h]
  apply List.drop_left'
  simp; omega

theorem unSuffix_shape_spaces (p w1 d w2 ext : List Char) (hp : p ≠ [])
    (hlast : charAt p (p.length - 1) ≠ ' ') (hw1 : ∀ c ∈ w1, c = ' ')
    (hw2 : ∀ c ∈ w2, c = ' ') (hdig : ∀ c ∈ d, isdigit c = true)
    (hext : ext = [] ∨ ext.head? = some '.') (hnc : ')' ∉ ext)
    (hlen : (p ++ (w1 ++ '(' :: (d ++ ')' :: (w2 ++ ext)))).length < npos) :
    unSuffix (p ++ (w1 ++ '(' :: (d ++ ')' :: (w2 ++ ext)))) = some (p ++ ext) := by
  have hpl : 0 < p.length := List.length_pos.mpr hp
  have hsl := shape_length p w1 d w2 ext
  obtain ⟨hc, ho, hd, hb⟩ := shape_valid p w1 d w2 ext hdig
    (fun c hcm => by rw [hw2 c hcm]; exact isspace_space) hext hnc
  have hr := eraseRange_valid _ _ _ hlen hc ho hd hb
  have hbegin : find_last_not_of (p ++ (w1 ++ '(' :: (d ++ ')' :: (w2 ++ ext)))) ' '
      (szSub (p.length + w1.length) 1) = p.length - 1 := by
    rw [szSub_one _ (by omega) (by omega)]
    apply find_last_not_of_eq
    · omega
    · omega
    · rw [shape_front p w1 d w2 ext _ (by omega)]
      exact hlast
    · intro j h1 h2 _
      rw [shape_w1 p w1 d w2 ext j (by omega) (by omega)]
      exact hw1 _ (charAt_mem _ _ (by omega))
  have hspaces : ∀ j, p.length + w1.length + 1 + d.length + 1 ≤ j →
      j < p.length + w1.length + 1 + d.length + 1 + w2.length →
      charAt (p ++ (w1 ++ '(' :: (d ++ ')' :: (w2 ++ ext)))) j = ' ' := by
    intro j h1 h2
    rw [shape_after p w1 d w2 ext j (by omega), charAt_append_left _ _ _ (by omega)]
    exact hw2 _ (charAt_mem _ _ (by omega))
  have hend : szSub (if find_first_not_of (p ++ (w1 ++ '(' :: (d ++ ')' :: (w2 ++ ext)))) ' '
        (p.length + w1.length + 1 + d.length + 1) = npos
      then (p ++ (w1 ++ '(' :: (d ++ ')' :: (w2 ++ ext)))).length
      else find_first_not_of (p ++ (w1 ++ '(' :: (d ++ ')' :: (w2 ++ ext)))) ' '
        (p.length + w1.length + 1 + d.length + 1)) 1 =
      p.length + w1.length + 1 + d.length + w2.length := by
    rcases hext with he | he
    · have hl0 : ext.length = 0 := by rw [he]; rfl
      rw [find_first_not_of_none _ _ _ (fun j h1 h2 => hspaces j h1 (by omega)), if_pos rfl,
        szSub_one _ (by omega) (by omega)]
      omega
    · have hne : ext ≠ [] := by
        intro h0; rw [h0] at he; simp at he
      have hel : 0 < ext.length := List.length_pos.mpr hne
      have hf : find_first_not_of (p ++ (w1 ++ '(' :: (d ++ ')' :: (w2 ++ ext)))) ' '
          (p.length + w1.length + 1 + d.length + 1) =
          p.length + w1.length + 1 + d.length + 1 + w2.length := by
        apply find_first_not_of_eq
        · omega
        · omega
        · rw [shape_after p w1 d w2 ext _ (by omega), charAt_append_right _ _ _ (by omega)]
          have : p.length + w1.length + 1 + d.length + 1 + w2.length -
              (p.length + w1.length + 1 + d.length) - 1 - w2.length = 0 := by omega
          rw [this, charAt_head ext '.' he]
          decide
        · intro j h1 h2
          exact hspaces j h1 h2
      rw [hf, if_neg (by omega), szSub_one _ (by omega) (by omega)]
      omega
  unfold unSuffix
  rw [hr]
  simp only [hbegin, hend]
  rw [szAdd_one _ (by omega), Nat.sub_add_cancel hpl]
  unfold erase
  rw [if_pos (by omega), shape_take, shape_drop]
  simp [hp]

theorem charAt_last_ne (p : List Char) (c : Char) (hp : p ≠ []) (h : p.getLast? ≠ some c) :
    charAt p (p.length - 1) ≠ c := by
  have hpl : 0 < p.length := List.length_pos.mpr hp
  rw [List.getLast?_eq_getElem?, List.getElem?_eq_getElem (by omega)] at h
  simp only [charAt, List.getD_eq_getElem?_getD, List.getElem?_eq_getElem
    (by omega : p.length - 1 < p.length), Option.getD_some]
  intro e
  apply h
  rw [e]

/-! ## The two absorption steps of `unSuffix` -/

theorem gobble_begin_le (x : List Char) (b : Nat) (hlen : x.length < npos) (hb : 0 < b)
    (hbl : b < x.length) : szAdd (find_last_not_of x ' ' (szSub b 1)) 1 ≤ b := by
  rw [szSub_one b hb (by omega)]
  rcases find_last_not_of_cases x ' ' (b - 1) with ⟨h1, _⟩ | ⟨h1, h2, _, _⟩
  · rw [h1, szAdd_npos_one]
    omega
  · rw [szAdd_one _ (by omega)]
    omega

theorem gobble_end_spec (x : List Char) (e : Nat) (hlen : x.length < npos)
    (hel : e < x.length) :
    e + 1 ≤ szSub (if find_first_not_of x ' ' (e + 1) = npos then x.length
        else find_first_not_of x ' ' (e + 1)) 1 + 1 ∧
      szSub (if find_first_not_of x ' ' (e + 1) = npos then x.length
        else find_first_not_of x ' ' (e + 1)) 1 + 1 ≤ x.length ∧
      (∀ j, e < j → j < szSub (if find_first_not_of x ' ' (e + 1) = npos then x.length
        else find_first_not_of x ' ' (e + 1)) 1 + 1 → charAt x j = ' ') ∧
      (szSub (if find_first_not_of x ' ' (e + 1) = npos then x.length
        else find_first_not_of x ' ' (e + 1)) 1 + 1 < x.length →
        charAt x (szSub (if find_first_not_of x ' ' (e + 1) = npos then x.length
          else find_first_not_of x ' ' (e + 1)) 1 + 1) ≠ ' ') := by
  rcases find_first_not_of_cases x ' ' (e + 1) with ⟨h1, h2⟩ | ⟨h1, h2, h3, h4⟩
  · rw [h1, if_pos rfl, szSub_one _ (by omega) (by omega)]
    refine ⟨by omega, by omega, fun j hj1 hj2 => h2 j (by omega) (by omega), fun h => ?_⟩
    omega
  · rw [if_neg (by omega), szSub_one _ (by omega) (by omega)]
    have hc : find_first_not_of x ' ' (e + 1) - 1 + 1 = find_first_not_of x ' ' (e + 1) := by
      omega
    rw [hc]
    exact ⟨by omega, by omega, fun j hj1 hj2 => h4 j (by omega) hj2, fun _ => h3⟩

theorem gobble_begin_zero (x : List Char) (e : Nat) (hlen : x.length < npos)
    (hel : e < x.length) (hce : charAt x e ≠ ' ') :
    e + 1 ≤ szAdd (find_last_not_of x ' ' (szSub 0 1)) 1 ∧
      szAdd (find_last_not_of x ' ' (szSub 0 1)) 1 ≤ x.length ∧
      charAt x (szAdd (find_last_not_of x ' ' (szSub 0 1)) 1 - 1) ≠ ' ' ∧
      ∀ j, szAdd (find_last_not_of x ' ' (szSub 0 1)) 1 ≤ j → j < x.length →
        charAt x j = ' ' := by
  rw [szSub_zero_one]
  rcases find_last_not_of_cases x ' ' npos with ⟨_, h2⟩ | ⟨h1, _, h3, h4⟩
  · exact absurd (h2 e (by omega) hel) hce
  · rw [szAdd_one _ (by omega)]
    have hge : e ≤ find_last_not_of x ' ' npos := by
      by_contra hlt
      exact hce (h4 e (by omega) (by omega) hel)
    refine ⟨by omega, by omega, ?_, fun j hj1 hj2 => h4 j (by omega) (by omega) hj2⟩
    rw [Nat.add_sub_cancel]
    exact h3

theorem unSuffix_valid (x : List Char) (b e : Nat) (hlen : x.length < npos)
    (he : IsLastClose x e) (hb : IsMatchedOpen x e b) (hd : DigitsBetween x b e)
    (ht : BlankUntilDot x e) :
    unSuffix x =
      if szAdd (find_last_not_of x ' ' (szSub b 1)) 1 ≤
          szSub (if find_first_not_of x ' ' (e + 1) = npos then x.length
            else find_first_not_of x ' ' (e + 1)) 1 + 1 then
        (if (x.take (szAdd (find_last_not_of x ' ' (szSub b 1)) 1) ++
            x.drop (szSub (if find_first_not_of x ' ' (e + 1) = npos then x.length
              else find_first_not_of x ' ' (e + 1)) 1 + 1)).isEmpty
          then some x
          else some (x.take (szAdd (find_last_not_of x ' ' (szSub b 1)) 1) ++
            x.drop (szSub (if find_first_not_of x ' ' (e + 1) = npos then x.length
              else find_first_not_of x ' ' (e + 1)) 1 + 1)))
      else none := by
  have h2 := (gobble_end_spec x e hlen he.1).2.1
  unfold unSuffix
  rw [eraseRange_valid x b e hlen he hb hd ht]
  unfold erase
  by_cases hle : szAdd (find_last_not_of x ' ' (szSub b 1)) 1 ≤
      szSub (if find_first_not_of x ' ' (e + 1) = npos then x.length
        else find_first_not_of x ' ' (e + 1)) 1 + 1
  · simp only [hle, h2, and_self, if_true]
  · simp only [hle, false_and, if_false]

theorem unSuffix_cases (x r : List Char) (hlen : x.length < npos) (h : unSuffix x = some r) :
    r = x ∨ ∃ b e B F, IsLastClose x e ∧ IsMatchedOpen x e b ∧ DigitsBetween x b e ∧
      BlankUntilDot x e ∧ B = szAdd (find_last_not_of x ' ' (szSub b 1)) 1 ∧
      F = szSub (if find_first_not_of x ' ' (e + 1) = npos then x.length
        else find_first_not_of x ' ' (e + 1)) 1 + 1 ∧
      B ≤ F ∧ F ≤ x.length ∧ r = x.take B ++ x.drop F := by
  cases hr : eraseRange x with
  | none =>
    left
    unfold unSuffix at h
    rw [hr] at h
    simpa using h.symm
  | some rg =>
    obtain ⟨b, e, he, hb, hd, ht⟩ := eraseRange_some x rg hlen hr
    rw [unSuffix_valid x b e hlen he hb hd ht] at h
    by_cases hle : szAdd (find_last_not_of x ' ' (szSub b 1)) 1 ≤
        szSub (if find_first_not_of x ' ' (e + 1) = npos then x.length
          else find_first_not_of x ' ' (e + 1)) 1 + 1
    · rw [if_pos hle] at h
      by_cases hem : (x.take (szAdd (find_last_not_of x ' ' (szSub b 1)) 1) ++
            x.drop (szSub (if find_first_not_of x ' ' (e + 1) = npos then x.length
              else find_first_not_of x ' ' (e + 1)) 1 + 1)).isEmpty = true
      · rw [if_pos hem] at h
        left
        exact (Option.some.inj h).symm
      · rw [if_neg hem] at h
        right
        exact ⟨b, e, _, _, he, hb, hd, ht, rfl, rfl, hle,
          (gobble_end_spec x e hlen he.1).2.1, (Option.some.inj h).symm⟩
    · rw [if_neg hle] at h
      exact Option.noConfusion h

theorem unSuffix_no_close (r : List Char) (hlen : r.length < npos)
    (h : ∀ j, j < r.length → charAt r j ≠ ')') : unSuffix r = some r := by
  apply unSuffix_of_invalid r hlen
  rintro ⟨_, e, he, _, _, _⟩
  exact h e he.1 he.2.1

theorem unSuffix_leading_group_fixed (x : List Char) (e : Nat) (hlen : x.length < npos)
    (he : IsLastClose x e) (hb : IsMatchedOpen x e 0) (hd : DigitsBetween x 0 e) :
    unSuffix (x.take (e + 1)) = some (x.take (e + 1)) := by
  have hel := he.1
  have hrl : (x.take (e + 1)).length = e + 1 := by simp; omega
  have hch : ∀ j, j ≤ e → charAt (x.take (e + 1)) j = charAt x j :=
    fun j hj => charAt_take x (e + 1) j (by omega)
  have hclose : charAt (x.take (e + 1)) e = ')' := by rw [hch e (Nat.le_refl _)]; exact he.2.1
  have he2 : IsLastClose (x.take (e + 1)) e :=
    ⟨by omega, hclose, fun j h1 h2 => by omega⟩
  have hb2 : IsMatchedOpen (x.take (e + 1)) e 0 :=
    ⟨Nat.zero_le _, by rw [hch 0 (Nat.zero_le _)]; exact hb.2.1,
      fun j h1 h2 => by rw [hch j h2]; exact hb.2.2 j h1 h2⟩
  have hd2 : DigitsBetween (x.take (e + 1)) 0 e :=
    fun j h1 h2 => by rw [hch j (by omega)]; exact hd j h1 h2
  have ht2 : BlankUntilDot (x.take (e + 1)) e := fun j h1 h2 => by omega
  have hne : charAt (x.take (e + 1)) e ≠ ' ' := by rw [hclose]; decide
  have hB := gobble_begin_zero (x.take (e + 1)) e (by omega) (by omega) hne
  have hF := gobble_end_spec (x.take (e + 1)) e (by omega) (by omega)
  have hBe : szAdd (find_last_not_of (x.take (e + 1)) ' ' (szSub 0 1)) 1 = e + 1 := by omega
  have hFe : szSub (if find_first_not_of (x.take (e + 1)) ' ' (e + 1) = npos
      then (x.take (e + 1)).length
      else find_first_not_of (x.take (e + 1)) ' ' (e + 1)) 1 + 1 = e + 1 := by omega
  rw [unSuffix_valid _ 0 e (by omega) he2 hb2 hd2 ht2, hBe, hFe, if_pos (Nat.le_refl _),
    List.take_append_drop]
  rw [if_neg]
  intro hem
  have : (x.take (e + 1)).length = 0 := by
    rw [List.isEmpty_iff] at hem
    rw [hem]; rfl
  omega

/-! ## The claims about `unSuffix` -/

/-- C1: for a non-empty `p` that does not end in a space, a non-empty digit string `d`
and an `ext` that is empty or starts with `'.'` and has no `')'`, `unSuffix` applied to
`p ++ ' '^a ++ "(" ++ d ++ ")" ++ ' '^b ++ ext` returns `p ++ ext`; whatever parentheses
`p` holds are kept. -/
theorem unSuffix_strips_trailing_group (p d ext : List Char) (a b : Nat)
    (hp : p ≠ []) (hlast : p.getLast? ≠ some ' ')
    (hd : d ≠ []) (hdig : ∀ c ∈ d, isdigit c = true)
    (hext : ext = [] ∨ ext.head? = some '.') (hnc : ')' ∉ ext)
    (hlen : (p ++ List.replicate a ' ' ++ ['('] ++ d ++ [')'] ++ List.replicate b ' '
      ++ ext).length < npos) :
    unSuffix (p ++ List.replicate a ' ' ++ ['('] ++ d ++ [')'] ++ List.replicate b ' '
      ++ ext) = some (p ++ ext) := by
  have hs : p ++ List.replicate a ' ' ++ ['('] ++ d ++ [')'] ++ List.replicate b ' ' ++ ext =
      p ++ (List.replicate a ' ' ++ '(' :: (d ++ ')' :: (List.replicate b ' ' ++ ext))) := by
    simp
  have _hd := hd
  rw [hs] at hlen ⊢
  exact unSuffix_shape_spaces p _ d _ ext hp (charAt_last_ne p ' ' hp hlast)
    (fun c hc => List.eq_of_mem_replicate hc) (fun c hc => List.eq_of_mem_replicate hc)
    hdig hext hnc hlen

/-- Witness of C1 on the two names of the test suite. -/
theorem unSuffix_strips_trailing_group_witness :
    unSuffix "/test/message (2).txt".toList = some "/test/message.txt".toList ∧
    unSuffix "/test/message   (3475)    ".toList = some "/test/message".toList :=
  ⟨unSuffix_strips_trailing_group "/test/message".toList "2".toList ".txt".toList 1 0
      (by decide) (by decide) (by decide) (by decide) (by decide) (by decide) (by decide),
    unSuffix_strips_trailing_group "/test/message".toList "3475".toList [] 3 4
      (by decide) (by decide) (by decide) (by decide) (by decide) (by decide) (by decide)⟩

/-- C9: when some character strictly between the matched `'('` and the last `')'` is not
a decimal digit, `unSuffix` returns the input unchanged. -/
theorem unSuffix_nondigit_unchanged (path : List Char) (e b j : Nat)
    (hlen : path.length < npos) (he : IsLastClose path e) (hb : IsMatchedOpen path e b)
    (hj1 : b < j) (hj2 : j < e) (hnd : isdigit (charAt path j) = false) :
    unSuffix path = some path := by
  apply unSuffix_of_invalid path hlen
  rintro ⟨b2, e2, h1, h2, h3, _⟩
  have hee : e2 = e := isLastClose_unique path e2 e h1 he
  subst hee
  have hbb : b2 = b := isMatchedOpen_unique path e2 b2 b h2 hb
  subst hbb
  rw [h3 j hj1 hj2] at hnd
  exact Bool.noConfusion hnd

/-- Witness of C9 on the name of the test suite. -/
theorem unSuffix_nondigit_unchanged_witness :
    unSuffix "test123/configs (it should not erase this set of parens)/startup.cfg".toList =
      some "test123/configs (it should not erase this set of parens)/startup.cfg".toList :=
  unSuffix_nondigit_unchanged
    "test123/configs (it should not erase this set of parens)/startup.cfg".toList 55 16 17
    (by decide) (isLastClose_find _ (by decide) (by decide))
    (isMatchedOpen_find _ 55 (by decide)) (by decide) (by decide) (by decide)

/-- C10: when, after the last `')'`, a character that is neither whitespace nor `'.'`
occurs before the first `'.'` (or before the end of the string when there is none),
`unSuffix` returns the input unchanged. -/
theorem unSuffix_trailing_text_unchanged (path : List Char) (e j : Nat)
    (hlen : path.length < npos) (he : IsLastClose path e) (hj1 : e < j)
    (hj2 : j < path.length) (hsp : isspace (charAt path j) = false)
    (hndot : charAt path j ≠ '.') (hdot : ∀ m, e < m → m < j → charAt path m ≠ '.') :
    unSuffix path = some path := by
  apply unSuffix_of_invalid path hlen
  rintro ⟨b2, e2, h1, _, _, h4⟩
  have hee : e2 = e := isLastClose_unique path e2 e h1 he
  subst hee
  have := h4 j hj1 hj2 (fun m hm1 hm2 => by
    by_cases hmj : m = j
    · subst hmj; exact hndot
    · exact hdot m hm1 (by omega))
  rw [this] at hsp
  exact Bool.noConfusion hsp

/-- Witness of C10 on the name of the test suite. -/
theorem unSuffix_trailing_text_unchanged_witness :
    unSuffix "/test/message (37)  d .txt".toList =
      some "/test/message (37)  d .txt".toList :=
  unSuffix_trailing_text_unchanged "/test/message (37)  d .txt".toList 17 20
    (by decide) (isLastClose_find _ (by decide) (by decide)) (by decide) (by decide)
    (by decide) (by decide)
    (fun m h1 h2 => by
      have hm : m = 18 ∨ m = 19 := by omega
      rcases hm with hm | hm <;> subst hm <;> decide)

/-- C7 at the input `"(2).txt"`: `unSuffix` reaches its `erase` call with
`beginIdx = 7` and `endIdx = 2`, so the range `[7, 3)` is not well-formed and the
call is undefined. -/
theorem unSuffix_range_ill_formed_at_leading_paren :
    eraseRange "(2).txt".toList = some (7, 2) ∧ ¬ (7 ≤ 2 + 1) ∧
      unSuffix "(2).txt".toList = none := by
  decide

/-- C8 at the input `"(5453)            "`: `unSuffix` strips the trailing spaces and
returns `"(5453)"` instead of the input. -/
theorem unSuffix_leading_paren_strips_spaces :
    unSuffix "(5453)            ".toList = some "(5453)".toList ∧
      "(5453)".toList ≠ "(5453)            ".toList := by
  decide

/-- C2 fails on stacked annotations: `"a (2) (3)"` becomes `"a (2)"`, which a second
call turns into `"a"`. -/
theorem unSuffix_not_idempotent :
    ¬ ∀ x : List Char, x.length < npos → (unSuffix x).bind unSuffix = unSuffix x := by
  intro h
  have h1 := h "a (2) (3)".toList (by decide)
  revert h1
  decide

/-! ## Facts about paths and decimal text -/

theorem dirPart_append_filename (p : List Char) : dirPart p ++ filename p = p := by
  unfold dirPart filename List.rdropWhile List.rtakeWhile
  rw [← List.reverse_append, List.takeWhile_append_dropWhile, List.reverse_reverse]

theorem rdropWhile_append_rtakeWhile_eq (q : Char → Bool) (f : List Char) :
    f.rdropWhile q ++ f.rtakeWhile q = f := by
  unfold List.rdropWhile List.rtakeWhile
  rw [← List.reverse_append, List.takeWhile_append_dropWhile, List.reverse_reverse]

theorem splitExt_append (f : List Char) : (splitExt f).1 ++ (splitExt f).2 = f := by
  unfold splitExt
  by_cases h1 : f = ['.'] ∨ f = ['.', '.']
  · rw [if_pos h1]; simp
  · rw [if_neg h1]
    by_cases h2 : (f.rdropWhile (fun c => c != '.')).length ≤ 1
    · rw [if_pos h2]; simp
    · rw [if_neg h2]
      have hne : f.rdropWhile (fun c => c != '.') ≠ [] := by
        intro h0; rw [h0] at h2; simp at h2
      have hlast := List.rdropWhile_last_not (fun c => c != '.') f hne
      have hdot : (f.rdropWhile (fun c => c != '.')).getLast hne = '.' := by
        simpa using hlast
      have hsplit := List.dropLast_append_getLast hne
      rw [hdot] at hsplit
      show (f.rdropWhile (fun c => c != '.')).dropLast ++
        '.' :: f.rtakeWhile (fun c => c != '.') = f
      calc (f.rdropWhile (fun c => c != '.')).dropLast ++
            '.' :: f.rtakeWhile (fun c => c != '.')
          = ((f.rdropWhile (fun c => c != '.')).dropLast ++ ['.']) ++
            f.rtakeWhile (fun c => c != '.') := by simp
        _ = f := by rw [hsplit, rdropWhile_append_rtakeWhile_eq]

theorem stem_append_extension (p : List Char) : stem p ++ extension p = filename p :=
  splitExt_append (filename p)

theorem extension_cases (p : List Char) :
    extension p = [] ∨ (extension p).head? = some '.' := by
  unfold extension splitExt
  by_cases h1 : filename p = ['.'] ∨ filename p = ['.', '.']
  · left; rw [if_pos h1]
  · rw [if_neg h1]
    by_cases h2 : ((filename p).rdropWhile (fun c => c != '.')).length ≤ 1
    · left; rw [if_pos h2]
    · right; rw [if_neg h2]; rfl

theorem path_decomposition (p : List Char) : dirPart p ++ (stem p ++ extension p) = p := by
  rw [stem_append_extension, dirPart_append_filename]

theorem filename_no_slash (p : List Char) : ∀ c ∈ filename p, isSlash c = false := by
  intro c hc
  have h := List.mem_rtakeWhile_imp hc
  simpa using h

theorem stem_no_slash (p : List Char) : ∀ c ∈ stem p, isSlash c = false := by
  intro c hc
  apply filename_no_slash p
  rw [← stem_append_extension]
  exact List.mem_append_left _ hc

theorem replace_filename_relative (p name : List Char)
    (h : ∀ c, name.head? = some c → isSlash c = false) :
    replace_filename p name = dirPart p ++ name := by
  cases name with
  | nil => simp [replace_filename]
  | cons c rest =>
    have hc : isSlash c = false := h c rfl
    simp [replace_filename, hc]

theorem candidate_eq (c : List Char) (i : Nat) :
    candidate c i =
      (dirPart c ++ stem c) ++ ([' '] ++ '(' :: (decimal i ++ ')' :: ([] ++ extension c))) := by
  unfold candidate
  rw [replace_filename_relative]
  · simp
  · intro x hx
    cases hst : stem c with
    | nil =>
      rw [hst] at hx
      simp only [List.nil_append, List.cons_append, List.head?_cons, Option.some.injEq] at hx
      rw [← hx]
      decide
    | cons y t =>
      rw [hst] at hx
      simp only [List.cons_append, List.head?_cons, Option.some.injEq] at hx
      rw [← hx]
      exact stem_no_slash c y (by rw [hst]; exact List.mem_cons_self _ _)

theorem digit_char (m : Nat) (h : m < 10) : isdigit (Char.ofNat (48 + m)) = true := by
  have hm : m = 0 ∨ m = 1 ∨ m = 2 ∨ m = 3 ∨ m = 4 ∨ m = 5 ∨ m = 6 ∨ m = 7 ∨ m = 8 ∨ m = 9 := by
    omega
  rcases hm with h | h | h | h | h | h | h | h | h | h <;> subst h <;> decide

theorem decimalAux_digits (fuel n : Nat) (acc : List Char)
    (hacc : ∀ c ∈ acc, isdigit c = true) :
    ∀ c ∈ decimalAux fuel n acc, isdigit c = true := by
  induction fuel generalizing n acc with
  | zero => exact hacc
  | succ fuel ih =>
    have hcons : ∀ c ∈ Char.ofNat (48 + n % 10) :: acc, isdigit c = true := by
      intro c hc
      rcases List.mem_cons.mp hc with h | h
      · rw [h]; exact digit_char _ (Nat.mod_lt _ (by decide))
      · exact hacc c h
    unfold decimalAux
    by_cases h : n / 10 = 0
    · rw [if_pos h]; exact hcons
    · rw [if_neg h]; exact ih _ _ hcons

theorem decimal_digits (n : Nat) : ∀ c ∈ decimal n, isdigit c = true :=
  decimalAux_digits _ _ _ (fun c hc => by simp at hc)

theorem decimalAux_append (fuel n : Nat) (acc : List Char) :
    decimalAux fuel n acc = decimalAux fuel n [] ++ acc := by
  induction fuel generalizing n acc with
  | zero => rfl
  | succ fuel ih =>
    unfold decimalAux
    by_cases h : n / 10 = 0
    · rw [if_pos h, if_pos h]; rfl
    · rw [if_neg h, if_neg h, ih _ (_ :: acc), ih _ [_]]
      simp

theorem digit_char_value (m : Nat) (h : m < 10) : (Char.ofNat (48 + m)).toNat - 48 = m := by
  have hm : m = 0 ∨ m = 1 ∨ m = 2 ∨ m = 3 ∨ m = 4 ∨ m = 5 ∨ m = 6 ∨ m = 7 ∨ m = 8 ∨ m = 9 := by
    omega
  rcases hm with h | h | h | h | h | h | h | h | h | h <;> subst h <;> decide

theorem decimalValue_concat (l : List Char) (c : Char) :
    decimalValue (l ++ [c]) = 10 * decimalValue l + (c.toNat - 48) := by
  simp [decimalValue, List.foldl_append]

theorem decimalValue_decimalAux (fuel n : Nat) (h : n < fuel) :
    decimalValue (decimalAux fuel n []) = n := by
  induction fuel generalizing n with
  | zero => omega
  | succ fuel ih =>
    unfold decimalAux
    by_cases h0 : n / 10 = 0
    · rw [if_pos h0]
      have := decimalValue_concat [] (Char.ofNat (48 + n % 10))
      simp only [List.nil_append] at this
      rw [this, digit_char_value _ (Nat.mod_lt _ (by decide))]
      simp only [decimalValue, List.foldl_nil]
      omega
    · rw [if_neg h0, decimalAux_append, decimalValue_concat,
        digit_char_value _ (Nat.mod_lt _ (by decide)), ih (n / 10) (by omega)]
      omega

theorem decimal_injective (n m : Nat) (h : decimal n = decimal m) : n = m := by
  have h1 := decimalValue_decimalAux (n + 1) n (by omega)
  have h2 := decimalValue_decimalAux (m + 1) m (by omega)
  unfold decimal at h
  rw [h] at h1
  omega

theorem candidate_injective (c : List Char) (i j : Nat) (h : candidate c i = candidate c j) :
    i = j := by
  rw [candidate_eq, candidate_eq] at h
  have h1 := List.append_cancel_left h
  simp only [List.singleton_append, List.cons.injEq, true_and, List.nil_append] at h1
  have h2 : decimal i ++ (')' :: extension c) = decimal j ++ (')' :: extension c) := h1
  exact decimal_injective i j (List.append_cancel_right h2)

/-! ## The probing loop -/

theorem probeLoop_found (ex : List Char → Bool) (c : List Char) (k i0 i : Nat) (h1 : i0 ≤ i)
    (h2 : i < i0 + k) (hfree : ex (candidate c i) = false)
    (hused : ∀ j, i0 ≤ j → j < i → ex (candidate c j) = true) :
    probeLoop ex c i0 k = some (candidate c i) := by
  induction k generalizing i0 with
  | zero => omega
  | succ k ih =>
    unfold probeLoop
    by_cases h : i0 = i
    · subst h; simp [hfree]
    · rw [if_neg (by simp [hused i0 (by omega) (by omega)])]
      exact ih (i0 + 1) (by omega) (by omega) (fun j hj1 hj2 => hused j (by omega) hj2)

theorem probeLoop_none (ex : List Char → Bool) (c : List Char) (k i0 : Nat)
    (hused : ∀ j, i0 ≤ j → j < i0 + k → ex (candidate c j) = true) :
    probeLoop ex c i0 k = none := by
  induction k generalizing i0 with
  | zero => rfl
  | succ k ih =>
    unfold probeLoop
    rw [if_neg (by simp [hused i0 (by omega) (by omega)])]
    exact ih (i0 + 1) (fun j hj1 hj2 => hused j (by omega) (by omega))

theorem probeLoop_some (ex : List Char → Bool) (c : List Char) (k i0 : Nat) (r : List Char)
    (h : probeLoop ex c i0 k = some r) :
    ∃ i, i0 ≤ i ∧ i < i0 + k ∧ r = candidate c i ∧ ex (candidate c i) = false ∧
      ∀ j, i0 ≤ j → j < i → ex (candidate c j) = true := by
  induction k generalizing i0 with
  | zero => exact Option.noConfusion h
  | succ k ih =>
    unfold probeLoop at h
    by_cases hex : ex (candidate c i0) = true
    · rw [if_neg (by simp [hex])] at h
      obtain ⟨i, hi1, hi2, hr, hf, hu⟩ := ih (i0 + 1) h
      refine ⟨i, by omega, by omega, hr, hf, fun j hj1 hj2 => ?_⟩
      by_cases hj : j = i0
      · subst hj; exact hex
      · exact hu j (by omega) hj2
    · have hfalse : ex (candidate c i0) = false := by simpa using hex
      rw [if_pos (by simp [hfalse])] at h
      exact ⟨i0, by omega, by omega, (Option.some.inj h).symm, hfalse,
        fun j hj1 hj2 => by omega⟩

theorem probeLoop_eq_none (ex : List Char → Bool) (c : List Char) (k i0 : Nat)
    (h : probeLoop ex c i0 k = none) :
    ∀ j, i0 ≤ j → j < i0 + k → ex (candidate c j) = true := by
  induction k generalizing i0 with
  | zero => intro j h1 h2; omega
  | succ k ih =>
    unfold probeLoop at h
    by_cases hex : ex (candidate c i0) = true
    · rw [if_neg (by simp [hex])] at h
      intro j hj1 hj2
      by_cases hj : j = i0
      · subst hj; exact hex
      · exact ih (i0 + 1) h j (by omega) (by omega)
    · rw [if_pos (by simpa using hex)] at h
      exact Option.noConfusion h

theorem getFirstUnusedFileName_free_canonical (ex : List Char → Bool)
    (path canonical : List Char) (hc : unSuffix path = some canonical)
    (hfree : ex canonical = false) : getFirstUnusedFileName ex path = some canonical := by
  unfold getFirstUnusedFileName
  rw [hc]
  simp [hfree]

theorem getFirstUnusedFileName_at (ex : List Char → Bool) (path canonical : List Char)
    (i : Nat) (hc : unSuffix path = some canonical) (hused : ex canonical = true)
    (h1 : 2 ≤ i) (h2 : i < 1000000) (hfree : ex (candidate canonical i) = false)
    (hbelow : ∀ j, 2 ≤ j → j < i → ex (candidate canonical j) = true) :
    getFirstUnusedFileName ex path = some (candidate canonical i) := by
  unfold getFirstUnusedFileName
  rw [hc]
  simp only [hused, Bool.not_true, Bool.false_eq_true, if_false]
  rw [probeLoop_found ex canonical (1000000 - 2) 2 i h1 (by omega) hfree hbelow]

theorem getFirstUnusedFileName_exhausted (ex : List Char → Bool) (path canonical : List Char)
    (hc : unSuffix path = some canonical) (hused : ex canonical = true)
    (hall : ∀ j, 2 ≤ j → j < 1000000 → ex (candidate canonical j) = true) :
    getFirstUnusedFileName ex path = some exhaustedPath := by
  unfold getFirstUnusedFileName
  rw [hc]
  simp only [hused, Bool.not_true, Bool.false_eq_true, if_false]
  rw [probeLoop_none ex canonical (1000000 - 2) 2 (fun j hj1 hj2 => hall j hj1 (by omega))]

/-! ## The claims about `getFirstUnusedFileName` -/

/-- C4: with `canonical = unSuffix(path)`, `getFirstUnusedFileName` returns `canonical`
when it does not exist; otherwise, when the candidate of some `i` with
`2 <= i < 1000000` does not exist and the candidates of all smaller counters from `2` on
exist, it returns the candidate of that least `i`. -/
theorem getFirstUnusedFileName_first_free (ex : List Char → Bool)
    (path canonical : List Char) (hc : unSuffix path = some canonical) :
    (ex canonical = false → getFirstUnusedFileName ex path = some canonical) ∧
    (ex canonical = true → ∀ i, 2 ≤ i → i < 1000000 →
      ex (candidate canonical i) = false →
      (∀ j, 2 ≤ j → j < i → ex (candidate canonical j) = true) →
      getFirstUnusedFileName ex path = some (candidate canonical i)) :=
  ⟨getFirstUnusedFileName_free_canonical ex path canonical hc,
    fun hused i h1 h2 hfree hbelow =>
      getFirstUnusedFileName_at ex path canonical i hc hused h1 h2 hfree hbelow⟩

/-- Witness of C4: with `"text.txt"` and `"text (2).txt"` present, the input
`"text (2).txt"` yields `"text (3).txt"`. -/
theorem getFirstUnusedFileName_first_free_witness :
    getFirstUnusedFileName
      (fun q => decide (q = "text.txt".toList) || decide (q = "text (2).txt".toList))
      "text (2).txt".toList = some "text (3).txt".toList :=
  (getFirstUnusedFileName_first_free
    (fun q => decide (q = "text.txt".toList) || decide (q = "text (2).txt".toList))
    "text (2).txt".toList "text.txt".toList (by decide)).2 (by decide) 3 (by decide)
    (by decide) (by decide)
    (fun j h1 h2 => by
      have hj : j = 2 := by omega
      subst hj
      decide)

/-- C6 fails when every probed name exists: the path returned after the loop is not
tested, so it may exist. -/
theorem getFirstUnusedFileName_result_may_exist :
    ¬ ∀ (ex : List Char → Bool) (path r : List Char),
      getFirstUnusedFileName ex path = some r → ex r = false := by
  intro h
  have hr := getFirstUnusedFileName_exhausted (fun _ => true) "a".toList "a".toList
    (by decide) rfl (fun _ _ _ => rfl)
  have := h (fun _ => true) "a".toList exhaustedPath hr
  exact Bool.noConfusion this

/-- C6, amended: when the canonical name or the candidate of some `i` with
`2 <= i < 1000000` does not exist, the path returned by `getFirstUnusedFileName` does
not exist. -/
theorem getFirstUnusedFileName_result_free (ex : List Char → Bool)
    (path canonical r : List Char) (hc : unSuffix path = some canonical)
    (hfree : ex canonical = false ∨
      ∃ i, 2 ≤ i ∧ i < 1000000 ∧ ex (candidate canonical i) = false)
    (hr : getFirstUnusedFileName ex path = some r) : ex r = false := by
  unfold getFirstUnusedFileName at hr
  rw [hc] at hr
  by_cases hused : ex canonical = true
  · simp only [hused, Bool.not_true, Bool.false_eq_true, if_false] at hr
    cases hp : probeLoop ex canonical 2 (1000000 - 2) with
    | some t =>
      rw [hp] at hr
      obtain ⟨i, _, _, ht, hf, _⟩ := probeLoop_some ex canonical _ 2 t hp
      have hrt : r = t := (Option.some.inj hr).symm
      rw [hrt, ht]
      exact hf
    | none =>
      exfalso
      have hall := probeLoop_eq_none ex canonical _ 2 hp
      rcases hfree with h0 | ⟨i, h1, h2, h3⟩
      · rw [h0] at hused; exact Bool.noConfusion hused
      · rw [hall i h1 (by omega)] at h3
        exact Bool.noConfusion h3
  · have hfalse : ex canonical = false := by simpa using hused
    simp only [hfalse, Bool.not_false, if_true] at hr
    rw [← Option.some.inj hr]
    exact hfalse

/-- Witness of the amended C6: with `"text.txt"` and `"text (2).txt"` present, the path
returned for `"text (2).txt"`, which is `"text (3).txt"`, does not exist. -/
theorem getFirstUnusedFileName_result_free_witness :
    (fun q => decide (q = "text.txt".toList) || decide (q = "text (2).txt".toList))
      "text (3).txt".toList = false :=
  getFirstUnusedFileName_result_free
    (fun q => decide (q = "text.txt".toList) || decide (q = "text (2).txt".toList))
    "text (2).txt".toList "text.txt".toList "text (3).txt".toList (by decide)
    (Or.inr ⟨3, by decide, by decide, by decide⟩) (by decide)

theorem afterRounds_invariant (ex : List Char → Bool) (f : List Char)
    (hcanon : unSuffix f = some f) (hf : ex f = true)
    (hnone : ∀ i, 2 ≤ i → i < 1000000 → ex (candidate f i) = false) (k : Nat)
    (hk : k + 2 ≤ 1000000) :
    ∃ exk, afterRounds ex f k = some exk ∧ exk f = true ∧
      (∀ i, 2 ≤ i → i < k + 2 → exk (candidate f i) = true) ∧
      (∀ i, k + 2 ≤ i → i < 1000000 → exk (candidate f i) = false) := by
  induction k with
  | zero =>
    exact ⟨ex, rfl, hf, fun i h1 h2 => by omega, fun i h1 h2 => hnone i (by omega) h2⟩
  | succ k ih =>
    obtain ⟨exk, hk1, hk2, hk3, hk4⟩ := ih (by omega)
    have hcall := getFirstUnusedFileName_at exk f f (k + 2) hcanon hk2 (by omega) (by omega)
      (hk4 (k + 2) (by omega) (by omega)) (fun j hj1 hj2 => hk3 j hj1 hj2)
    refine ⟨createFile exk (candidate f (k + 2)), ?_, ?_, ?_, ?_⟩
    · show (match afterRounds ex f k with
        | none => none
        | some ex2 =>
          match getFirstUnusedFileName ex2 f with
          | none => none
          | some p => some (createFile ex2 p)) = _
      rw [hk1]
      simp only [hcall]
    · simp [createFile, hk2]
    · intro i h1 h2
      by_cases hi : i = k + 2
      · subst hi; simp [createFile]
      · simp [createFile, hk3 i h1 (by omega)]
    · intro i h1 h2
      have hne : candidate f i ≠ candidate f (k + 2) := by
        intro heq
        have := candidate_injective f i (k + 2) heq
        omega
      simp [createFile, hne, hk4 i (by omega) h2]

/-- C5: when the canonical path `f` exists and none of its candidates does, call number
`k` of the scenario "call `getFirstUnusedFileName f`, then create the returned path"
returns the candidate with the counter `k + 2`, as long as `k + 2 < 1000000`. -/
theorem kthCall_sequence (ex : List Char → Bool) (f : List Char)
    (hcanon : unSuffix f = some f) (hf : ex f = true)
    (hnone : ∀ i, 2 ≤ i → i < 1000000 → ex (candidate f i) = false) (k : Nat)
    (hk : k + 2 < 1000000) : kthCall ex f k = some (candidate f (k + 2)) := by
  obtain ⟨exk, hk1, hk2, hk3, hk4⟩ := afterRounds_invariant ex f hcanon hf hnone k (by omega)
  unfold kthCall
  rw [hk1]
  exact getFirstUnusedFileName_at exk f f (k + 2) hcanon hk2 (by omega) hk
    (hk4 (k + 2) (by omega) hk) (fun j hj1 hj2 => hk3 j hj1 hj2)

/-- Witness of C5 on the file of the test `UnusedFileNames`: the call number `7` returns
`"unused (9).txt"`. -/
theorem kthCall_sequence_witness :
    kthCall (fun q => decide (q = "test/unused file names/unused.txt".toList))
      "test/unused file names/unused.txt".toList 7 =
      some "test/unused file names/unused (9).txt".toList :=
  kthCall_sequence (fun q => decide (q = "test/unused file names/unused.txt".toList))
    "test/unused file names/unused.txt".toList (by decide) (by decide)
    (fun i _ _ => by
      have h : candidate "test/unused file names/unused.txt".toList i ≠
          "test/unused file names/unused.txt".toList := by
        intro heq
        have hl := congrArg List.length heq
        rw [candidate_eq] at hl
        have hd : dirPart "test/unused file names/unused.txt".toList ++
            stem "test/unused file names/unused.txt".toList =
            "test/unused file names/unused".toList := by decide
        have he : extension "test/unused file names/unused.txt".toList = ".txt".toList := by
          decide
        rw [hd, he] at hl
        simp at hl
      show decide (candidate "test/unused file names/unused.txt".toList i =
        "test/unused file names/unused.txt".toList) = false
      exact decide_eq_false h)
    7 (by decide)

/-- C3 fails for a stem that ends in a space: the canonical name `"a .txt"` gives the
candidate `"a  (2).txt"`, which `unSuffix` turns into `"a.txt"`. -/
theorem unSuffix_candidate_not_inverse :
    ¬ ∀ (c : List Char) (n : Nat), unSuffix c = some c → 2 ≤ n →
      unSuffix (candidate c n) = some c := by
  intro h
  have h1 := h "a .txt".toList 2 (by decide) (by decide)
  revert h1
  decide

/-- C3, amended: for a canonical name `c` whose text before the extension (parent
directory and stem) is non-empty and does not end in a space and whose extension has no
`')'`, and for `n >= 2`, `unSuffix` applied to the candidate
`stem(c) ++ " (" ++ n ++ ")" ++ extension(c)` returns `c`. -/
theorem unSuffix_candidate (c : List Char) (n : Nat) (hcanon : unSuffix c = some c)
    (hn : 2 ≤ n) (hp : dirPart c ++ stem c ≠ [])
    (hlast : (dirPart c ++ stem c).getLast? ≠ some ' ')
    (hnc : ')' ∉ extension c) (hlen : (candidate c n).length < npos) :
    unSuffix (candidate c n) = some c := by
  have _h1 := hcanon
  have _h2 := hn
  rw [candidate_eq] at hlen ⊢
  have key := unSuffix_shape_spaces (dirPart c ++ stem c) [' '] (decimal n) [] (extension c)
    hp (charAt_last_ne _ ' ' hp hlast) (fun x hx => by simpa using hx)
    (fun x hx => by simp at hx) (decimal_digits n) (extension_cases c) hnc hlen
  rw [key, List.append_assoc, path_decomposition]

/-- Witness of the amended C3 on the file of the test `UnusedFileNames`. -/
theorem unSuffix_candidate_witness :
    unSuffix "test/unused file names/unused (2).txt".toList =
      some "test/unused file names/unused.txt".toList :=
  unSuffix_candidate "test/unused file names/unused.txt".toList 2 (by decide) (by decide)
    (by decide) (by decide) (by decide) (by decide)

/-! ## Further claims about `unSuffix` -/

/-- C11 at the input `"a (2).d/file"` with no existing path: `unSuffix` works on the whole
pathname, takes the `'.'` of the directory name for the start of an extension and
returns `"a.d/file"`, whose directory differs from that of the input. -/
theorem getFirstUnusedFileName_changes_directory :
    getFirstUnusedFileName (fun _ => false) "a (2).d/file".toList =
        some "a.d/file".toList ∧
      dirPart "a (2).d/file".toList = "a (2).d/".toList ∧
      dirPart "a.d/file".toList = "a.d/".toList ∧
      parent_path "a.d/file".toList ≠ parent_path "a (2).d/file".toList := by
  decide

/-- C16 at the input `"file ().txt"`: the digit loop makes no iteration, the empty group
is taken for a suffix and `unSuffix` returns `"file.txt"`. -/
theorem unSuffix_strips_empty_group :
    unSuffix "file ().txt".toList = some "file.txt".toList ∧
      "file.txt".toList ≠ "file ().txt".toList := by
  decide

/-- C17 at the input `"a (2)\t.txt"` (`Char.ofNat 9` is the tab): the tab passes the
validation, but only spaces are absorbed, and `unSuffix` returns `"a\t.txt"`. -/
theorem unSuffix_keeps_tab :
    unSuffix ("a (2)".toList ++ [Char.ofNat 9] ++ ".txt".toList) =
        some ("a".toList ++ [Char.ofNat 9] ++ ".txt".toList) ∧
      "a".toList ++ [Char.ofNat 9] ++ ".txt".toList ≠ "a.txt".toList ∧
      isspace (Char.ofNat 9) = true := by
  decide

/-- C18: a name without `')'`, or without `'('` at or before its last `')'`, is returned
by `unSuffix` unchanged. -/
theorem unSuffix_unmatched_unchanged (path : List Char) (hlen : path.length < npos)
    (h : ')' ∉ path ∨ ∃ e, IsLastClose path e ∧ ∀ j, j ≤ e → charAt path j ≠ '(') :
    unSuffix path = some path := by
  apply unSuffix_of_invalid path hlen
  rintro ⟨b, e, he, hb, _, _⟩
  rcases h with h | ⟨e2, he2, hno⟩
  · apply h
    rw [← he.2.1]
    exact charAt_mem path e he.1
  · have hee : e2 = e := isLastClose_unique path e2 e he2 he
    subst hee
    exact hno b hb.1 hb.2.1

/-- Witness of C18 on the name of the test suite, and on a name with `')'` only. -/
theorem unSuffix_unmatched_unchanged_witness :
    unSuffix "what/about/a path that/has no/parens at all/nor a file/extension".toList =
        some "what/about/a path that/has no/parens at all/nor a file/extension".toList ∧
      unSuffix "a 2).txt".toList = some "a 2).txt".toList :=
  ⟨unSuffix_unmatched_unchanged
      "what/about/a path that/has no/parens at all/nor a file/extension".toList
      (by decide) (Or.inl (by decide)),
    unSuffix_unmatched_unchanged "a 2).txt".toList (by decide)
      (Or.inr ⟨3, isLastClose_find _ (by decide) (by decide), fun j hj => by
        have hj4 : j = 0 ∨ j = 1 ∨ j = 2 ∨ j = 3 := by omega
        rcases hj4 with h | h | h | h <;> subst h <;> decide⟩)⟩

/-! ## The claims about `filenameHasIllegalChar` -/

theorem innerLoop_iff (c : Char) (l : List Char) : innerLoop c l = true ↔ c ∈ l := by
  induction l with
  | nil => simp [innerLoop]
  | cons x t ih =>
    unfold innerLoop
    by_cases h : c = x
    · subst h; simp
    · rw [if_neg (by simpa using h), ih]
      simp [h]

theorem reservedChars_eq : reservedChars = illegalChars := by decide

/-- C12: `filenameHasIllegalChar` returns `'\0'` when no character of the name is
reserved, and otherwise the character at the smallest index that holds a reserved
character. -/
theorem filenameHasIllegalChar_first_reserved (name : List Char) :
    ((∀ c ∈ name, c ∉ reservedChars) → filenameHasIllegalChar name = Char.ofNat 0) ∧
    (∀ i, i < name.length → charAt name i ∈ reservedChars →
      (∀ j, j < i → charAt name j ∉ reservedChars) →
      filenameHasIllegalChar name = charAt name i) := by
  induction name with
  | nil =>
    exact ⟨fun _ => rfl, fun i hi => by simp at hi⟩
  | cons c rest ih =>
    constructor
    · intro h
      unfold filenameHasIllegalChar
      have hc : ¬ innerLoop c illegalChars = true := by
        rw [innerLoop_iff, ← reservedChars_eq]
        exact h c (List.mem_cons_self _ _)
      rw [if_neg hc]
      exact ih.1 (fun x hx => h x (List.mem_cons_of_mem _ hx))
    · intro i hi hres hfirst
      unfold filenameHasIllegalChar
      cases i with
      | zero =>
        rw [charAt_cons_zero] at hres ⊢
        rw [if_pos]
        rw [innerLoop_iff, ← reservedChars_eq]
        exact hres
      | succ k =>
        have h0 := hfirst 0 (by omega)
        rw [charAt_cons_zero] at h0
        have hc : ¬ innerLoop c illegalChars = true := by
          rw [innerLoop_iff, ← reservedChars_eq]
          exact h0
        rw [if_neg hc, charAt_cons_succ]
        rw [charAt_cons_succ] at hres
        apply ih.2 k (by simpa using hi) hres
        intro j hj
        have := hfirst (j + 1) (by omega)
        rwa [charAt_cons_succ] at this

/-- Witness of C12 on the names of the test suite. -/
theorem filenameHasIllegalChar_first_reserved_witness :
    filenameHasIllegalChar "text.txt".toList = Char.ofNat 0 ∧
      filenameHasIllegalChar "te?xt.txt".toList = '?' ∧
      filenameHasIllegalChar "te><t.txt".toList = '>' :=
  ⟨(filenameHasIllegalChar_first_reserved "text.txt".toList).1 (by decide),
    (filenameHasIllegalChar_first_reserved "te?xt.txt".toList).2 2 (by decide) (by decide)
      (by decide),
    (filenameHasIllegalChar_first_reserved "te><t.txt".toList).2 2 (by decide) (by decide)
      (by decide)⟩

/-! ## The claims about `renameFile` and `createFolder` -/

theorem replace_filename_own (path : List Char) :
    replace_filename path (stem path ++ extension path) = path := by
  rw [replace_filename_relative, path_decomposition]
  intro c hc
  rw [stem_append_extension] at hc
  apply filename_no_slash path c
  cases hf : filename path with
  | nil => rw [hf] at hc; simp at hc
  | cons x t =>
    rw [hf] at hc
    simp only [List.head?_cons, Option.some.injEq] at hc
    rw [← hc]
    exact List.mem_cons_self _ _

/-- C13: when `filenameHasIllegalChar(newName)` reports a character, or when the
destination `renamePath(currentPath, newName)` exists, `renameFile` returns `false` and
leaves the file system as it was; renaming an existing file to its own stem is such a
case. -/
theorem renameFile_rejects {σ : Type} (pathExists : σ → List Char → Bool)
    (rename : σ → List Char → List Char → σ) (s : σ) (currentPath newName : List Char) :
    ((filenameHasIllegalChar newName ≠ Char.ofNat 0 ∨
        pathExists s (renamePath currentPath newName) = true) →
      renameFile pathExists rename s currentPath newName = (false, s)) ∧
    (pathExists s currentPath = true →
      renameFile pathExists rename s currentPath (stem currentPath) = (false, s)) := by
  constructor
  · intro h
    unfold renameFile
    by_cases hill : filenameHasIllegalChar newName ≠ Char.ofNat 0
    · rw [if_pos hill]
    · rw [if_neg hill]
      rcases h with h | h
      · exact absurd h hill
      · rw [if_pos h]
  · intro h
    unfold renameFile
    by_cases hill : filenameHasIllegalChar (stem currentPath) ≠ Char.ofNat 0
    · rw [if_pos hill]
    · rw [if_neg hill]
      have hown : renamePath currentPath (stem currentPath) = currentPath :=
        replace_filename_own currentPath
      rw [hown, if_pos h]

/-- Witness of C13 on a file system that is the list of its paths: a new name with `'?'`,
an occupied destination, and the own name of `"test/renaming/rename.txt"`. -/
theorem renameFile_rejects_witness :
    renameFile (fun s q => decide (q ∈ s)) (fun s a b => b :: s.filter (fun q => q != a))
        ["d/a.txt".toList, "d/b.txt".toList] "d/a.txt".toList "b?".toList =
        (false, ["d/a.txt".toList, "d/b.txt".toList]) ∧
      renameFile (fun s q => decide (q ∈ s)) (fun s a b => b :: s.filter (fun q => q != a))
        ["d/a.txt".toList, "d/b.txt".toList] "d/a.txt".toList "b".toList =
        (false, ["d/a.txt".toList, "d/b.txt".toList]) ∧
      renameFile (fun s q => decide (q ∈ s)) (fun s a b => b :: s.filter (fun q => q != a))
        ["test/renaming/rename.txt".toList] "test/renaming/rename.txt".toList
        "rename".toList = (false, ["test/renaming/rename.txt".toList]) :=
  ⟨(renameFile_rejects (fun s q => decide (q ∈ s))
      (fun s a b => b :: s.filter (fun q => q != a))
      ["d/a.txt".toList, "d/b.txt".toList] "d/a.txt".toList "b?".toList).1
      (Or.inl (by decide)),
    (renameFile_rejects (fun s q => decide (q ∈ s))
      (fun s a b => b :: s.filter (fun q => q != a))
      ["d/a.txt".toList, "d/b.txt".toList] "d/a.txt".toList "b".toList).1
      (Or.inr (by decide)),
    (renameFile_rejects (fun s q => decide (q ∈ s))
      (fun s a b => b :: s.filter (fun q => q != a))
      ["test/renaming/rename.txt".toList] "test/renaming/rename.txt".toList
      "rename".toList).2 (by decide)⟩

theorem parent_path_length_le (p : List Char) : (parent_path p).length ≤ (dirPart p).length := by
  unfold parent_path
  by_cases h : (dirPart p).rdropWhile isSlash = []
  · rw [if_pos h]
  · rw [if_neg h]
    have hpre := List.rdropWhile_prefix isSlash (dirPart p)
    exact List.IsPrefix.length_le hpre

/-- C14: when the path has an extension or `fileHasNoExtension` is set, `createFolder`
passes the parent path, and nothing else, to `create_directories`, or, without a parent
path, creates nothing and returns `false`; otherwise it passes the whole path. The
parent path is never the path itself when the path has a filename. -/
theorem createFolder_classifies {σ : Type} (create_directories : σ → List Char → Bool × σ)
    (s : σ) (path : List Char) (fileHasNoExtension : Bool) :
    ((has_extension path = true ∨ fileHasNoExtension = true) →
      has_parent_path path = true →
      createFolder create_directories s path fileHasNoExtension =
        create_directories s (parent_path path)) ∧
    ((has_extension path = true ∨ fileHasNoExtension = true) →
      has_parent_path path = false →
      createFolder create_directories s path fileHasNoExtension = (false, s)) ∧
    (has_extension path = false → fileHasNoExtension = false →
      createFolder create_directories s path fileHasNoExtension =
        create_directories s path) ∧
    (filename path ≠ [] → parent_path path ≠ path) := by
  refine ⟨?_, ?_, ?_, ?_⟩
  · intro h hp
    unfold createFolder
    rw [if_pos (by simpa using h), if_pos hp]
  · intro h hp
    unfold createFolder
    rw [if_pos (by simpa using h), if_neg (by simp [hp])]
  · intro h1 h2
    unfold createFolder
    rw [if_neg (by simp [h1, h2])]
  · intro hf heq
    have h1 := parent_path_length_le path
    have h2 := congrArg List.length (dirPart_append_filename path)
    rw [List.length_append] at h2
    have h3 : 0 < (filename path).length := List.length_pos.mpr hf
    rw [heq] at h1
    omega

/-- Witness of C14 on a file system that records the calls of `create_directories`. -/
theorem createFolder_classifies_witness :
    createFolder recordCall [] "a/b/file.txt".toList false = (true, ["a/b".toList]) ∧
      createFolder recordCall [] "a/b/file".toList true = (true, ["a/b".toList]) ∧
      createFolder recordCall [] "test.txt".toList false = (false, []) ∧
      createFolder recordCall [] "creation1".toList false = (true, ["creation1".toList]) :=
  ⟨(createFolder_classifies recordCall [] "a/b/file.txt".toList false).1
      (Or.inl (by decide)) (by decide),
    (createFolder_classifies recordCall [] "a/b/file".toList true).1
      (Or.inr rfl) (by decide),
    (createFolder_classifies recordCall [] "test.txt".toList false).2.1
      (Or.inl (by decide)) (by decide),
    (createFolder_classifies recordCall [] "creation1".toList false).2.2.1
      (by decide) rfl⟩

/-! ## Exhausted probing and suffixed inputs -/

theorem probeLoopChecks_all_used (ex : List Char → Bool) (c : List Char) (k i0 : Nat)
    (hused : ∀ j, i0 ≤ j → j < i0 + k → ex (candidate c j) = true) :
    probeLoopChecks ex c i0 k = k := by
  induction k generalizing i0 with
  | zero => rfl
  | succ k ih =>
    unfold probeLoopChecks
    rw [if_neg (by simp [hused i0 (by omega) (by omega)]),
      ih (i0 + 1) (fun j hj1 hj2 => hused j (by omega) (by omega))]
    omega

/-- C15 fails in its last part: the path returned after an exhausted probe is also the
result of a successful call, on the free name `"pick a different file name"`. -/
theorem exhaustedPath_not_distinguishable :
    ¬ ∀ (ex1 ex2 : List Char → Bool) (p1 c1 p2 r1 r2 : List Char),
      unSuffix p1 = some c1 → ex1 c1 = true →
      (∀ i, 2 ≤ i → i < 1000000 → ex1 (candidate c1 i) = true) →
      getFirstUnusedFileName ex1 p1 = some r1 →
      getFirstUnusedFileName ex2 p2 = some r2 → ex2 r2 = false → r1 ≠ r2 := by
  intro h
  have h1 := getFirstUnusedFileName_exhausted (fun _ => true) "a".toList "a".toList
    (by decide) rfl (fun _ _ _ => rfl)
  have h2 : getFirstUnusedFileName (fun _ => false) exhaustedPath = some exhaustedPath :=
    getFirstUnusedFileName_free_canonical (fun _ => false) exhaustedPath exhaustedPath
      (by decide) rfl
  exact h (fun _ => true) (fun _ => false) "a".toList "a".toList exhaustedPath exhaustedPath
    exhaustedPath (by decide) rfl (fun _ _ _ => rfl) h1 h2 rfl rfl

theorem probeLoopChecks_le (ex : List Char → Bool) (c : List Char) (k i0 : Nat) :
    probeLoopChecks ex c i0 k ≤ k := by
  induction k generalizing i0 with
  | zero => exact Nat.le_refl _
  | succ k ih =>
    unfold probeLoopChecks
    by_cases h : (!ex (candidate c i0)) = true
    · rw [if_pos h]; omega
    · rw [if_neg h]
      have := ih (i0 + 1)
      omega

theorem existenceChecks_le (ex : List Char → Bool) (path : List Char) :
    existenceChecks ex path ≤ 999999 := by
  unfold existenceChecks
  cases unSuffix path with
  | none => exact Nat.zero_le _
  | some c =>
    by_cases h : (!ex c) = true
    · simp only [h, if_true]; omega
    · simp only [h]
      have := probeLoopChecks_le ex c (1000000 - 2) 2
      simp only [Bool.false_eq_true, if_false]
      omega

theorem probeLoopChecks_found (ex : List Char → Bool) (c : List Char) (k i0 i : Nat)
    (h1 : i0 ≤ i) (h2 : i < i0 + k) (hfree : ex (candidate c i) = false)
    (hused : ∀ j, i0 ≤ j → j < i → ex (candidate c j) = true) :
    probeLoopChecks ex c i0 k = i - i0 + 1 := by
  induction k generalizing i0 with
  | zero => omega
  | succ k ih =>
    unfold probeLoopChecks
    by_cases h : i0 = i
    · subst h; simp [hfree]
    · rw [if_neg (by simp [hused i0 (by omega) (by omega)]),
        ih (i0 + 1) (by omega) (by omega) (fun j hj1 hj2 => hused j (by omega) hj2)]
      omega

theorem existenceChecks_at (ex : List Char → Bool) (path canonical : List Char) (i : Nat)
    (hc : unSuffix path = some canonical) (hused : ex canonical = true)
    (h1 : 2 ≤ i) (h2 : i < 1000000) (hfree : ex (candidate canonical i) = false)
    (hbelow : ∀ j, 2 ≤ j → j < i → ex (candidate canonical j) = true) :
    existenceChecks ex path = i := by
  unfold existenceChecks
  rw [hc]
  simp only [hused, Bool.not_true, Bool.false_eq_true, if_false]
  rw [probeLoopChecks_found ex canonical (1000000 - 2) 2 i h1 (by omega) hfree hbelow]
  omega

theorem candidate_ne_exhaustedPath (c : List Char) (i : Nat) : candidate c i ≠ exhaustedPath := by
  intro h
  have hmem : '(' ∈ candidate c i := by
    rw [candidate_eq]
    simp
  rw [h] at hmem
  revert hmem
  decide

theorem getFirstUnusedFileName_success (ex : List Char → Bool) (path canonical r : List Char)
    (hc : unSuffix path = some canonical)
    (hfree : ex canonical = false ∨
      ∃ i, 2 ≤ i ∧ i < 1000000 ∧ ex (candidate canonical i) = false)
    (hr : getFirstUnusedFileName ex path = some r) :
    r = canonical ∨ ∃ i, r = candidate canonical i := by
  unfold getFirstUnusedFileName at hr
  rw [hc] at hr
  by_cases hused : ex canonical = true
  · simp only [hused, Bool.not_true, Bool.false_eq_true, if_false] at hr
    cases hp : probeLoop ex canonical 2 (1000000 - 2) with
    | some t =>
      rw [hp] at hr
      obtain ⟨i, _, _, ht, _, _⟩ := probeLoop_some ex canonical _ 2 t hp
      right
      exact ⟨i, by rw [← Option.some.inj hr, ht]⟩
    | none =>
      exfalso
      have hall := probeLoop_eq_none ex canonical _ 2 hp
      rcases hfree with h0 | ⟨i, h1, h2, h3⟩
      · rw [h0] at hused; exact Bool.noConfusion hused
      · rw [hall i h1 (by omega)] at h3
        exact Bool.noConfusion h3
  · have hfalse : ex canonical = false := by simpa using hused
    simp only [hfalse, Bool.not_false, if_true] at hr
    left
    exact (Option.some.inj hr).symm

/-- C15, amended: when the canonical name and the candidates of all `i` with
`2 <= i < 1000000` exist, `getFirstUnusedFileName` makes 999,999 existence checks and
returns the fixed path `"pick a different file name"`, whatever the input; this result
differs from the result of every call that finds a free name for an input whose canonical
name is not `"pick a different file name"`. -/
theorem getFirstUnusedFileName_exhaustion (ex : List Char → Bool)
    (path canonical : List Char) (hc : unSuffix path = some canonical)
    (hused : ex canonical = true)
    (hall : ∀ i, 2 ≤ i → i < 1000000 → ex (candidate canonical i) = true) :
    getFirstUnusedFileName ex path = some "pick a different file name".toList ∧
      existenceChecks ex path = 999999 ∧
      ∀ (ex2 : List Char → Bool) (p2 c2 r2 : List Char), unSuffix p2 = some c2 →
        c2 ≠ "pick a different file name".toList →
        (ex2 c2 = false ∨ ∃ i, 2 ≤ i ∧ i < 1000000 ∧ ex2 (candidate c2 i) = false) →
        getFirstUnusedFileName ex2 p2 = some r2 →
        getFirstUnusedFileName ex2 p2 ≠ getFirstUnusedFileName ex path := by
  have hres := getFirstUnusedFileName_exhausted ex path canonical hc hused hall
  refine ⟨hres, ?_, ?_⟩
  · unfold existenceChecks
    rw [hc]
    simp only [hused, Bool.not_true, Bool.false_eq_true, if_false]
    rw [probeLoopChecks_all_used ex canonical (1000000 - 2) 2
      (fun j hj1 hj2 => hall j hj1 (by omega))]
  · intro ex2 p2 c2 r2 hc2 hne hfree hr2 heq
    rw [hres, hr2] at heq
    have hr : r2 = exhaustedPath := Option.some.inj heq
    rcases getFirstUnusedFileName_success ex2 p2 c2 r2 hc2 hfree hr2 with h | ⟨i, h⟩
    · rw [h] at hr
      exact hne hr
    · rw [h] at hr
      exact candidate_ne_exhaustedPath c2 i hr

/-- Witness of the amended C15 on a file system in which every path exists, against the
same input on a file system in which none does. -/
theorem getFirstUnusedFileName_exhaustion_witness :
    getFirstUnusedFileName (fun _ => true) "text (2).txt".toList =
        some "pick a different file name".toList ∧
      existenceChecks (fun _ => true) "text (2).txt".toList = 999999 ∧
      getFirstUnusedFileName (fun _ => false) "text (2).txt".toList ≠
        getFirstUnusedFileName (fun _ => true) "text (2).txt".toList :=
  ⟨(getFirstUnusedFileName_exhaustion (fun _ => true) "text (2).txt".toList
      "text.txt".toList (by decide) rfl (fun _ _ _ => rfl)).1,
    (getFirstUnusedFileName_exhaustion (fun _ => true) "text (2).txt".toList
      "text.txt".toList (by decide) rfl (fun _ _ _ => rfl)).2.1,
    (getFirstUnusedFileName_exhaustion (fun _ => true) "text (2).txt".toList
      "text.txt".toList (by decide) rfl (fun _ _ _ => rfl)).2.2 (fun _ => false)
      "text (2).txt".toList "text.txt".toList "text.txt".toList (by decide) (by decide)
      (Or.inl rfl) (by decide)⟩

/-- C19 fails on stacked suffixes and on a stem that ends in a space: with no existing
path, `"a (2) (3)"` yields `"a (2)"` while its base name `"a (2)"` yields `"a"`, and
`"a  (2).txt"` yields `"a.txt"` while its canonical base name `"a .txt"` yields
`"a .txt"`. -/
theorem getFirstUnusedFileName_suffixed_differs :
    (¬ ∀ (ex : List Char → Bool) (p d ext : List Char), p ≠ [] → p.getLast? ≠ some ' ' →
      d ≠ [] → (∀ c ∈ d, isdigit c = true) → (ext = [] ∨ ext.head? = some '.') →
      ')' ∉ ext → (p ++ [' ', '('] ++ d ++ [')'] ++ ext).length < npos →
      getFirstUnusedFileName ex (p ++ [' ', '('] ++ d ++ [')'] ++ ext) =
        getFirstUnusedFileName ex (p ++ ext)) ∧
    (¬ ∀ (ex : List Char → Bool) (p d ext : List Char), p ≠ [] →
      unSuffix (p ++ ext) = some (p ++ ext) →
      d ≠ [] → (∀ c ∈ d, isdigit c = true) → (ext = [] ∨ ext.head? = some '.') →
      ')' ∉ ext → (p ++ [' ', '('] ++ d ++ [')'] ++ ext).length < npos →
      getFirstUnusedFileName ex (p ++ [' ', '('] ++ d ++ [')'] ++ ext) =
        getFirstUnusedFileName ex (p ++ ext)) := by
  constructor
  · intro h
    have h1 := h (fun _ => false) "a (2)".toList "3".toList [] (by decide) (by decide)
      (by decide) (by decide) (by decide) (by decide) (by decide)
    revert h1
    decide
  · intro h
    have h1 := h (fun _ => false) "a ".toList "2".toList ".txt".toList (by decide)
      (by decide) (by decide) (by decide) (by decide) (by decide) (by decide)
    revert h1
    decide

/-- C19, amended: for a path `p ++ " (" ++ d ++ ")" ++ ext` with a recognized suffix
(`p` non-empty and not ending in a space, `d` a non-empty digit string, `ext` empty or
starting with `'.'` and without `')'`) whose base name `p ++ ext` is canonical,
`getFirstUnusedFileName` returns what it returns for the base name. -/
theorem getFirstUnusedFileName_suffixed_input (ex : List Char → Bool) (p d ext : List Char)
    (hp : p ≠ []) (hlast : p.getLast? ≠ some ' ') (hd : d ≠ [])
    (hdig : ∀ c ∈ d, isdigit c = true) (hext : ext = [] ∨ ext.head? = some '.')
    (hnc : ')' ∉ ext) (hlen : (p ++ [' ', '('] ++ d ++ [')'] ++ ext).length < npos)
    (hbase : unSuffix (p ++ ext) = some (p ++ ext)) :
    getFirstUnusedFileName ex (p ++ [' ', '('] ++ d ++ [')'] ++ ext) =
      getFirstUnusedFileName ex (p ++ ext) := by
  have _hd := hd
  have hs : p ++ [' ', '('] ++ d ++ [')'] ++ ext =
      p ++ ([' '] ++ '(' :: (d ++ ')' :: ([] ++ ext))) := by simp
  rw [hs] at hlen
  have key := unSuffix_shape_spaces p [' '] d [] ext hp (charAt_last_ne p ' ' hp hlast)
    (fun x hx => by simpa using hx) (fun x hx => by simp at hx) hdig hext hnc hlen
  unfold getFirstUnusedFileName
  rw [hs, key, hbase]

/-- Witness of the amended C19: with `"text.txt"` and `"text (2).txt"` present, the input
`"text (2).txt"` is treated as `"text.txt"`, and both yield `"text (3).txt"`. -/
theorem getFirstUnusedFileName_suffixed_input_witness :
    getFirstUnusedFileName
        (fun q => decide (q = "text.txt".toList) || decide (q = "text (2).txt".toList))
        "text (2).txt".toList =
      getFirstUnusedFileName
        (fun q => decide (q = "text.txt".toList) || decide (q = "text (2).txt".toList))
        "text.txt".toList ∧
    getFirstUnusedFileName
        (fun q => decide (q = "text.txt".toList) || decide (q = "text (2).txt".toList))
        "text.txt".toList = some "text (3).txt".toList :=
  ⟨getFirstUnusedFileName_suffixed_input
      (fun q => decide (q = "text.txt".toList) || decide (q = "text (2).txt".toList))
      "text".toList "2".toList ".txt".toList (by decide) (by decide) (by decide) (by decide)
      (by decide) (by decide) (by decide) (by decide),
    by decide⟩

/-! ## The claim about `renamePath` -/

theorem dropWhile_append_all (q : Char → Bool) (l r : List Char)
    (h : ∀ x ∈ l, q x = true) : List.dropWhile q (l ++ r) = List.dropWhile q r := by
  induction l with
  | nil => rfl
  | cons x t ih =>
    rw [List.cons_append, List.dropWhile_cons, if_pos (h x (List.mem_cons_self _ _))]
    exact ih (fun y hy => h y (List.mem_cons_of_mem _ hy))

theorem rdropWhile_append_all (q : Char → Bool) (a t : List Char)
    (h : ∀ x ∈ t, q x = true) : (a ++ t).rdropWhile q = a.rdropWhile q := by
  unfold List.rdropWhile
  rw [List.reverse_append, dropWhile_append_all q _ _ (fun x hx => h x (List.mem_reverse.mp hx))]

theorem rtakeWhile_append_all (q : Char → Bool) (a t : List Char)
    (h : ∀ x ∈ t, q x = true) : (a ++ t).rtakeWhile q = a.rtakeWhile q ++ t := by
  have h1 := rdropWhile_append_rtakeWhile_eq q (a ++ t)
  have h2 := rdropWhile_append_rtakeWhile_eq q a
  rw [rdropWhile_append_all q a t h] at h1
  have h3 : a.rdropWhile q ++ (a ++ t).rtakeWhile q =
      a.rdropWhile q ++ (a.rtakeWhile q ++ t) := by
    rw [h1, ← List.append_assoc, h2]
  exact List.append_cancel_left h3

theorem rtakeWhile_rdropWhile (q : Char → Bool) (l : List Char) :
    (l.rdropWhile q).rtakeWhile q = [] := by
  have h1 := rdropWhile_append_rtakeWhile_eq q (l.rdropWhile q)
  rw [List.rdropWhile_idempotent] at h1
  exact List.append_right_eq_self.mp h1

theorem dirPart_append (p n : List Char) (h : ∀ c ∈ n, isSlash c = false) :
    dirPart (dirPart p ++ n) = dirPart p ∧ filename (dirPart p ++ n) = n := by
  have hq : ∀ x ∈ n, (fun c => !isSlash c) x = true := fun x hx => by simp [h x hx]
  constructor
  · unfold dirPart
    rw [rdropWhile_append_all _ _ _ hq, List.rdropWhile_idempotent]
  · unfold filename dirPart
    rw [rtakeWhile_append_all _ _ _ hq, rtakeWhile_rdropWhile, List.nil_append]

theorem extension_shape (p : List Char) :
    extension p = [] ∨ ∃ tail, extension p = '.' :: tail ∧ ∀ c ∈ tail, c ≠ '.' := by
  unfold extension splitExt
  by_cases h1 : filename p = ['.'] ∨ filename p = ['.', '.']
  · left; rw [if_pos h1]
  · rw [if_neg h1]
    by_cases h2 : ((filename p).rdropWhile (fun c => c != '.')).length ≤ 1
    · left; rw [if_pos h2]
    · right
      rw [if_neg h2]
      refine ⟨_, rfl, fun c hc => ?_⟩
      have := List.mem_rtakeWhile_imp hc
      simpa using this

theorem extension_no_slash (p : List Char) : ∀ c ∈ extension p, isSlash c = false := by
  intro c hc
  apply filename_no_slash p
  rw [← stem_append_extension]
  exact List.mem_append_right _ hc

theorem splitExt_no_dot (n : List Char) (hnd : '.' ∉ n) : splitExt n = (n, []) := by
  unfold splitExt
  by_cases h1 : n = ['.'] ∨ n = ['.', '.']
  · rw [if_pos h1]
  · rw [if_neg h1]
    have h0 : n.rdropWhile (fun c => c != '.') = [] := by
      rw [List.rdropWhile_eq_nil_iff]
      intro x hx
      have : x ≠ '.' := fun e => hnd (e ▸ hx)
      simpa using this
    rw [h0, if_pos (by simp)]

theorem splitExt_dot (n tail : List Char) (hn : n ≠ []) (hnd : '.' ∉ n)
    (ht : ∀ c ∈ tail, c ≠ '.') : splitExt (n ++ '.' :: tail) = (n, '.' :: tail) := by
  have hq : ∀ x ∈ tail, (fun c => c != '.') x = true := fun x hx => by simpa using ht x hx
  have hsplit : n ++ '.' :: tail = (n ++ ['.']) ++ tail := by simp
  have hdrop : (n ++ '.' :: tail).rdropWhile (fun c => c != '.') = n ++ ['.'] := by
    rw [hsplit, rdropWhile_append_all _ _ _ hq, List.rdropWhile_concat_neg]
    simp
  have htake : (n ++ '.' :: tail).rtakeWhile (fun c => c != '.') = tail := by
    rw [hsplit, rtakeWhile_append_all _ _ _ hq, List.rtakeWhile_concat_neg, List.nil_append]
    simp
  obtain ⟨x, t, hxt⟩ : ∃ x t, n = x :: t := by
    cases n with
    | nil => exact absurd rfl hn
    | cons x t => exact ⟨x, t, rfl⟩
  have hx : x ≠ '.' := by
    intro e
    apply hnd
    rw [hxt, e]
    exact List.mem_cons_self _ _
  unfold splitExt
  rw [if_neg, hdrop, htake, if_neg, List.dropLast_concat]
  · rw [hxt]; simp
  · rw [hxt]
    intro h
    rcases h with h | h
    · have := congrArg List.length h
      simp at this
    · simp only [List.cons_append, List.cons.injEq] at h
      exact hx h.1

theorem renamePath_eq (path newName : List Char) (hns : ∀ c ∈ newName, isSlash c = false) :
    renamePath path newName = dirPart path ++ (newName ++ extension path) := by
  unfold renamePath
  apply replace_filename_relative
  intro c hc
  cases newName with
  | nil =>
    apply extension_no_slash path
    rw [List.nil_append] at hc
    cases he : extension path with
    | nil => rw [he] at hc; simp at hc
    | cons x t =>
      rw [he] at hc
      simp only [List.head?_cons, Option.some.injEq] at hc
      rw [← hc]
      exact List.mem_cons_self _ _
  | cons x t =>
    simp only [List.cons_append, List.head?_cons, Option.some.injEq] at hc
    rw [← hc]
    exact hns x (List.mem_cons_self _ _)

/-- C20 fails for a new name with a directory separator, and its last part for the empty
new name: `renamePath("a/b.txt", "x/y")` is `"a/x/y.txt"`, in the directory `"a/x/"`,
and `renamePath("a/b.txt", "")` is `"a/.txt"`, whose stem is `".txt"`. -/
theorem renamePath_not_only_stem :
    (¬ ∀ (path newName : List Char),
      dirPart (renamePath path newName) = dirPart path ∧
      filename (renamePath path newName) = newName ++ extension path ∧
      ('.' ∉ newName → extension (renamePath path newName) = extension path ∧
        stem (renamePath path newName) = newName)) ∧
    renamePath "a/b.txt".toList "x/y".toList = "a/x/y.txt".toList ∧
    stem (renamePath "a/b.txt".toList []) = ".txt".toList := by
  refine ⟨fun h => ?_, by decide, by decide⟩
  have h1 := (h "a/b.txt".toList "x/y".toList).1
  revert h1
  decide

/-- C20, amended: for a new name without a directory separator, `renamePath` keeps the
directory of the path and its filename is `newName ++ extension(path)`; when the new name
is also non-empty and has no `'.'`, the extension is that of the path and the stem is the
new name. -/
theorem renamePath_replaces_stem (path newName : List Char)
    (hns : ∀ c ∈ newName, isSlash c = false) :
    dirPart (renamePath path newName) = dirPart path ∧
    parent_path (renamePath path newName) = parent_path path ∧
    filename (renamePath path newName) = newName ++ extension path ∧
    (newName ≠ [] → '.' ∉ newName →
      extension (renamePath path newName) = extension path ∧
      stem (renamePath path newName) = newName) := by
  have hall : ∀ c ∈ newName ++ extension path, isSlash c = false := by
    intro c hc
    rcases List.mem_append.mp hc with h | h
    · exact hns c h
    · exact extension_no_slash path c h
  have hd := dirPart_append path (newName ++ extension path) hall
  rw [← renamePath_eq path newName hns] at hd
  refine ⟨hd.1, ?_, hd.2, ?_⟩
  · unfold parent_path
    rw [hd.1]
  · intro hne hnd
    have hE : extension (renamePath path newName) =
        (splitExt (newName ++ extension path)).2 := by
      show (splitExt (filename (renamePath path newName))).2 = _
      rw [hd.2]
    have hS : stem (renamePath path newName) =
        (splitExt (newName ++ extension path)).1 := by
      show (splitExt (filename (renamePath path newName))).1 = _
      rw [hd.2]
    rw [hE, hS]
    rcases extension_shape path with he | ⟨tail, he, ht⟩
    · rw [he, List.append_nil, splitExt_no_dot newName hnd]
      exact ⟨rfl, rfl⟩
    · rw [he, splitExt_dot newName tail hne hnd ht]
      exact ⟨rfl, rfl⟩

/-- Witness of the amended C20 on the rename of the test suite. -/
theorem renamePath_replaces_stem_witness :
    dirPart (renamePath "test/renaming/rename.txt".toList "new name".toList) =
        "test/renaming/".toList ∧
      filename (renamePath "test/renaming/rename.txt".toList "new name".toList) =
        "new name.txt".toList ∧
      extension (renamePath "test/renaming/rename.txt".toList "new name".toList) =
        ".txt".toList ∧
      stem (renamePath "test/renaming/rename.txt".toList "new name".toList) =
        "new name".toList :=
  ⟨(renamePath_replaces_stem "test/renaming/rename.txt".toList "new name".toList
      (by decide)).1,
    (renamePath_replaces_stem "test/renaming/rename.txt".toList "new name".toList
      (by decide)).2.2.1,
    ((renamePath_replaces_stem "test/renaming/rename.txt".toList "new name".toList
      (by decide)).2.2.2 (by decide) (by decide)).1,
    ((renamePath_replaces_stem "test/renaming/rename.txt".toList "new name".toList
      (by decide)).2.2.2 (by decide) (by decide)).2⟩

/-! ## The frame of `unSuffix` -/

theorem gobble_begin_spaces (x : List Char) (b : Nat) (hlen : x.length < npos) (hb : 0 < b)
    (hbl : b < x.length) :
    ∀ j, szAdd (find_last_not_of x ' ' (szSub b 1)) 1 ≤ j → j < b → charAt x j = ' ' := by
  rw [szSub_one b hb (by omega)]
  rcases find_last_not_of_cases x ' ' (b - 1) with ⟨_, h2⟩ | ⟨h1, _, _, h4⟩
  · intro j _ hj
    exact h2 j (by omega) (by omega)
  · rw [szAdd_one _ (by omega)]
    intro j hj1 hj2
    exact h4 j (by omega) (by omega) (by omega)

theorem mem_charAt (l : List Char) (c : Char) (h : c ∈ l) :
    ∃ k, k < l.length ∧ charAt l k = c := by
  induction l with
  | nil => simp at h
  | cons x t ih =>
    rcases List.mem_cons.mp h with h1 | h1
    · exact ⟨0, by simp, by rw [charAt_cons_zero, h1]⟩
    · obtain ⟨k, hk1, hk2⟩ := ih h1
      exact ⟨k + 1, by simp; omega, by rw [charAt_cons_succ]; exact hk2⟩

theorem split_three (x : List Char) (B F : Nat) (h : B ≤ F) :
    x = x.take B ++ (x.drop B).take (F - B) ++ x.drop F := by
  have h1 : (x.drop B).drop (F - B) = x.drop F := by
    rw [List.drop_drop]
    congr 1
    omega
  rw [List.append_assoc, ← h1, List.take_append_drop, List.take_append_drop]

/-- C21: whenever `unSuffix` is defined on a name, the result is the name itself or the
name without one contiguous block, and every character of that block is a space, a
decimal digit, `'('` or `')'`. -/
theorem unSuffix_removes_one_block (x r : List Char) (hlen : x.length < npos)
    (hr : unSuffix x = some r) :
    ∃ pre mid post, x = pre ++ mid ++ post ∧ (r = pre ++ post ∨ r = x) ∧
      ∀ c ∈ mid, c = ' ' ∨ isdigit c = true ∨ c = '(' ∨ c = ')' := by
  rcases unSuffix_cases x r hlen hr with hx | ⟨b, e, B, F, he, hb, hd, _, hB, hF, hBF, hFl, hrx⟩
  · exact ⟨x, [], [], by simp, Or.inr hx, fun c hc => by simp at hc⟩
  · refine ⟨x.take B, (x.drop B).take (F - B), x.drop F, split_three x B F hBF, Or.inl hrx, ?_⟩
    intro c hc
    obtain ⟨k, hk1, hk2⟩ := mem_charAt _ c hc
    have hkl : k < F - B := by
      rw [List.length_take] at hk1
      omega
    rw [charAt_take _ _ _ hkl, charAt_drop] at hk2
    have hel := he.1
    have hF2 := gobble_end_spec x e hlen hel
    rw [← hF] at hF2
    have hafter : ∀ j, e < j → j < F → charAt x j = ' ' := hF2.2.2.1
    rw [← hk2]
    by_cases hje : e < B + k
    · exact Or.inl (hafter _ hje (by omega))
    · by_cases hb0 : b = 0
      · subst hb0
        exfalso
        have hne : charAt x e ≠ ' ' := by rw [he.2.1]; decide
        have hB2 := gobble_begin_zero x e hlen hel hne
        rw [← hB] at hB2
        omega
      · by_cases hjeq : B + k = e
        · rw [hjeq, he.2.1]
          exact Or.inr (Or.inr (Or.inr rfl))
        · by_cases hjb : b < B + k
          · exact Or.inr (Or.inl (hd _ hjb (by omega)))
          · by_cases hjbe : B + k = b
            · rw [hjbe, hb.2.1]
              exact Or.inr (Or.inr (Or.inl rfl))
            · have hsp := gobble_begin_spaces x b hlen (by omega) (by have := hb.1; omega)
              rw [← hB] at hsp
              exact Or.inl (hsp _ (by omega) (by omega))

/-- Witness of C21 on a name of the test suite: from `"/test/message (2).txt"` the block
`" (2)"` is removed. -/
theorem unSuffix_removes_one_block_witness :
    ∃ pre mid post, "/test/message (2).txt".toList = pre ++ mid ++ post ∧
      ("/test/message.txt".toList = pre ++ post ∨
        "/test/message.txt".toList = "/test/message (2).txt".toList) ∧
      ∀ c ∈ mid, c = ' ' ∨ isdigit c = true ∨ c = '(' ∨ c = ')' :=
  unSuffix_removes_one_block "/test/message (2).txt".toList "/test/message.txt".toList
    (by decide) (by decide)

/-! ## Idempotence of `unSuffix` -/

theorem getLast_eq_charAt (l : List Char) (h : l ≠ []) :
    l.getLast h = charAt l (l.length - 1) := by
  have hl : 0 < l.length := List.length_pos.mpr h
  rw [List.getLast_eq_getElem]
  simp only [charAt, List.getD_eq_getElem?_getD,
    List.getElem?_eq_getElem (by omega : l.length - 1 < l.length), Option.getD_some]

theorem gobble_begin_last (x : List Char) (b : Nat) (hlen : x.length < npos) (hb : 0 < b)
    (hbl : b < x.length) (hpos : 0 < szAdd (find_last_not_of x ' ' (szSub b 1)) 1) :
    charAt x (szAdd (find_last_not_of x ' ' (szSub b 1)) 1 - 1) ≠ ' ' := by
  rw [szSub_one b hb (by omega)] at hpos ⊢
  rcases find_last_not_of_cases x ' ' (b - 1) with ⟨h1, _⟩ | ⟨h1, _, h3, _⟩
  · rw [h1, szAdd_npos_one] at hpos
    omega
  · rw [szAdd_one _ (by omega), Nat.add_sub_cancel]
    exact h3

theorem take_rdropWhile_spaces (x : List Char) (B b : Nat) (hBb : B ≤ b) (hbl : b ≤ x.length)
    (hsp : ∀ j, B ≤ j → j < b → charAt x j = ' ')
    (hlast : 0 < B → charAt x (B - 1) ≠ ' ') :
    (x.take b).rdropWhile (fun c => c == ' ') = x.take B := by
  have hsplit : x.take b = x.take B ++ (x.take b).drop B := by
    have h := (List.take_append_drop B (x.take b)).symm
    rwa [List.take_take, Nat.min_eq_left hBb] at h
  have hw : ∀ c ∈ (x.take b).drop B, (fun c => c == ' ') c = true := by
    intro c hc
    obtain ⟨k, hk1, hk2⟩ := mem_charAt _ c hc
    have hk : B + k < b := by
      simp only [List.length_drop, List.length_take] at hk1
      omega
    rw [charAt_drop, charAt_take _ _ _ hk] at hk2
    rw [← hk2, hsp (B + k) (by omega) hk]
    rfl
  rw [hsplit, rdropWhile_append_all _ _ _ hw, List.rdropWhile_eq_self_iff]
  intro hne
  have hlen : (x.take B).length = B := by
    rw [List.length_take]
    omega
  have hB : 0 < B := by
    have := List.length_pos.mpr hne
    omega
  rw [getLast_eq_charAt, hlen, charAt_take _ _ _ (by omega)]
  simpa using hlast hB

theorem recognized_append_left (pre post : List Char)
    (hpost : ∀ j, j < post.length → charAt post j ≠ ')') (h : Recognized (pre ++ post)) :
    Recognized pre := by
  obtain ⟨b, e, he, hb, hd, ht⟩ := h
  have hlen : (pre ++ post).length = pre.length + post.length := List.length_append _ _
  have hel : e < pre.length := by
    by_contra hge
    have h1 := he.2.1
    rw [charAt_append_right _ _ _ (by omega)] at h1
    exact hpost _ (by have := he.1; omega) h1
  have hch : ∀ j, j < pre.length → charAt (pre ++ post) j = charAt pre j :=
    fun j hj => charAt_append_left _ _ _ hj
  refine ⟨b, e, ⟨hel, ?_, ?_⟩, ⟨hb.1, ?_, ?_⟩, ?_, ?_⟩
  · rw [← hch e hel]; exact he.2.1
  · intro j h1 h2
    rw [← hch j h2]
    exact he.2.2 j h1 (by omega)
  · rw [← hch b (by have := hb.1; omega)]; exact hb.2.1
  · intro j h1 h2
    rw [← hch j (by omega)]
    exact hb.2.2 j h1 h2
  · intro j h1 h2
    rw [← hch j (by omega)]
    exact hd j h1 h2
  · intro j h1 h2 h3
    rw [← hch j h2]
    refine ht j h1 (by omega) (fun m hm1 hm2 => ?_)
    rw [hch m (by omega)]
    exact h3 m hm1 hm2

theorem not_recognized_of_nondigit (s : List Char) (e b j : Nat) (he : IsLastClose s e)
    (hb : IsMatchedOpen s e b) (hj1 : b < j) (hj2 : j < e)
    (hnd : isdigit (charAt s j) = false) : ¬ Recognized s := by
  rintro ⟨b2, e2, h1, h2, h3, _⟩
  have hee : e2 = e := isLastClose_unique s e2 e h1 he
  subst hee
  have hbb : b2 = b := isMatchedOpen_unique s e2 b2 b h2 hb
  subst hbb
  rw [h3 j hj1 hj2] at hnd
  exact Bool.noConfusion hnd

/-- C2, amended: on a name on which `unSuffix` is defined, a second application returns
the result of the first, provided the text before the matched `'('`, without its trailing
spaces, does not itself carry a recognized annotation. -/
theorem unSuffix_idempotent_unstacked (x r : List Char) (hlen : x.length < npos)
    (hr : unSuffix x = some r)
    (hun : ∀ b e, IsLastClose x e → IsMatchedOpen x e b →
      ¬ Recognized ((x.take b).rdropWhile (fun c => c == ' '))) :
    unSuffix r = some r := by
  rcases unSuffix_cases x r hlen hr with hx | ⟨b, e, B, F, he, hb, hd, ht, hB, hF, hBF, hFl, hrx⟩
  · rw [hx]; rw [hx] at hr; exact hr
  · have hel := he.1
    have hF2 := gobble_end_spec x e hlen hel
    rw [← hF] at hF2
    by_cases hb0 : b = 0
    · subst hb0
      have hne : charAt x e ≠ ' ' := by rw [he.2.1]; decide
      have hB2 := gobble_begin_zero x e hlen hel hne
      rw [← hB] at hB2
      have hBe : B = e + 1 := by
        by_contra hcon
        exact hB2.2.2.1 (hF2.2.2.1 (B - 1) (by omega) (by omega))
      have hFe : F = x.length := by
        by_contra hcon
        exact hF2.2.2.2 (by omega) (hB2.2.2.2 F (by omega) (by omega))
      have hrt : r = x.take (e + 1) := by
        rw [hrx, hBe, hFe, List.drop_length, List.append_nil]
      rw [hrt]
      exact unSuffix_leading_group_fixed x e hlen he hb hd
    · have hble := hb.1
      have hBb : B ≤ b := by
        rw [hB]
        exact gobble_begin_le x b hlen (by omega) (by omega)
      have hsp := gobble_begin_spaces x b hlen (by omega) (by omega)
      rw [← hB] at hsp
      have hlast : 0 < B → charAt x (B - 1) ≠ ' ' := by
        intro hpos
        rw [hB] at hpos ⊢
        exact gobble_begin_last x b hlen (by omega) (by omega) hpos
      have htake := take_rdropWhile_spaces x B b hBb (by omega) hsp hlast
      have hrl : r.length = B + (x.length - F) := by
        rw [hrx]; simp; omega
      apply unSuffix_of_invalid r (by omega)
      intro hrec
      have hrec2 : Recognized (x.take B ++ x.drop F) := by
        rw [← hrx]; exact hrec
      apply hun b e he hb
      rw [htake]
      refine recognized_append_left _ _ (fun j hj => ?_) hrec2
      rw [charAt_drop]
      rw [List.length_drop] at hj
      exact he.2.2 _ (by omega) (by omega)

/-- Witness of the amended C2 on a name with an earlier parenthetical group:
`"notes (draft) (2).txt"` becomes `"notes (draft).txt"`, which a second call keeps. -/
theorem unSuffix_idempotent_unstacked_witness :
    unSuffix "notes (draft).txt".toList = some "notes (draft).txt".toList :=
  unSuffix_idempotent_unstacked "notes (draft) (2).txt".toList "notes (draft).txt".toList
    (by decide) (by decide)
    (fun b e he hb => by
      have he2 : e = 16 := isLastClose_unique _ e 16 he
        (isLastClose_find "notes (draft) (2).txt".toList (by decide) (by decide))
      subst he2
      have hb2 : b = 14 := isMatchedOpen_unique _ 16 b 14 hb
        (isMatchedOpen_find "notes (draft) (2).txt".toList 16 (by decide))
      subst hb2
      have hpre : ("notes (draft) (2).txt".toList.take 14).rdropWhile (fun c => c == ' ') =
          "notes (draft)".toList := by decide
      rw [hpre]
      exact not_recognized_of_nondigit "notes (draft)".toList 12 6 7
        (isLastClose_find "notes (draft)".toList (by decide) (by decide))
        (isMatchedOpen_find "notes (draft)".toList 12 (by decide))
        (by decide) (by decide) (by decide))

end FileOpHelpers
